import Mathlib

/-!
Verification of the GraphLink repository (graphlinkdb.py, graphlink.py,
graphlink_export.py) against its specification.

Strings are modelled as lists of unicode characters (Python `str`).  The
URL normalizer `normalize_url` is embedded together with the parts of the
CPython 3.11 `urllib.parse` machinery it calls (`urlparse` / `urlunparse`),
specialized exactly as the source uses them (scheme always `https`, empty
params and fragment on reassembly).  Two deliberate simplifications of the
library model, both irrelevant to the repository's facebook-profile URLs,
are documented at `pyUrlparse`.  `str.lower` is modelled as the ASCII
lowercasing of each character.

The SQLite tables `profiles` and `friendships` of graphlinkdb.py are
modelled as in-memory lists; `INTEGER PRIMARY KEY` id assignment is
max-id-plus-one, as SQLite assigns rowids.  The networkx calls
(`nx.shortest_path`, `nx.shortest_simple_paths`) are library code not in
the repository; they are modelled from the spec (section 4.5) as a
deterministic enumeration of simple paths, see `shortest_path` and
`k_shortest_simple_paths`.
-/

namespace GraphLink

/-- Python strings, as lists of unicode scalar values. -/
abbrev Str := List Char

/-- ASCII model of Python `str.lower`. -/
def lowerStr (s : Str) : Str := s.map Char.toLower

/-- Python `netloc.replace('www.', '')`: delete every occurrence of the
pattern `www.`, scanning left to right, non-overlapping. -/
def removeWWW : Str → Str
  | 'w' :: 'w' :: 'w' :: '.' :: rest => removeWWW rest
  | c :: rest => c :: removeWWW rest
  | [] => []

/-- Python `pat in s` (substring containment). -/
def containsSub (pat : Str) : Str → Bool
  | [] => pat.isEmpty
  | c :: rest => pat.isPrefixOf (c :: rest) || containsSub pat rest

/-- Python `path.rstrip('/')`. -/
def rstripSlash (s : Str) : Str := (s.reverse.dropWhile (fun c => c == '/')).reverse

/-- Python `s.split('&')`. -/
def splitAmp : Str → List Str
  | [] => [[]]
  | '&' :: rest => [] :: splitAmp rest
  | c :: rest =>
    match splitAmp rest with
    | h :: t => (c :: h) :: t
    | [] => [[c]]

/-- Python `'&'.join(l)`. -/
def joinAmp : List Str → Str
  | [] => []
  | [s] => s
  | s :: rest => s ++ '&' :: joinAmp rest

/-- A character of CPython `scheme_chars` (letters, digits, `+`, `-`, `.`). -/
def schemeChar (c : Char) : Bool := c.isAlpha || c.isDigit || c == '+' || c == '-' || c == '.'

/-- A character that does not end the netloc (CPython `_splitnetloc`
stops at the earliest of `/`, `?`, `#`). -/
def notDelim (c : Char) : Bool := c != '/' && c != '?' && c != '#'

/-- CPython 3.11 `urlsplit` input sanitization: left-strip WHATWG C0
control characters and space, then remove every tab, CR and LF. -/
def sanitizeUrl (s : Str) : Str :=
  (s.dropWhile (fun c => c.toNat ≤ 32)).filter (fun c => c != '\t' && c != '\r' && c != '\n')

/-- CPython `urlsplit` scheme recognition: the text before the first `:`
is a scheme when it is nonempty, starts with an ASCII letter and consists
of scheme characters; it is lowercased (a no-op on the already lowered
inputs of this program).  Returns (scheme, remainder). -/
def schemeOk (pre : Str) : Bool :=
  match pre with
  | c :: rest => c.isAlpha && rest.all schemeChar
  | [] => false

def splitScheme (s : Str) : Str × Str :=
  if (s.takeWhile (fun c => c != ':')).length < s.length &&
      !(s.takeWhile (fun c => c != ':')).isEmpty &&
      schemeOk (s.takeWhile (fun c => c != ':')) then
    (lowerStr (s.takeWhile (fun c => c != ':')),
     s.drop ((s.takeWhile (fun c => c != ':')).length + 1))
  else ([], s)

/-- CPython `urlsplit` netloc extraction.  When the remainder starts with
`//` the netloc runs to the first of `/?#`.  A netloc containing `[` or
`]` is modelled as a `ValueError` (`none`): CPython raises on unbalanced
brackets and on any bracketed host that is not a valid IPv6/IPvFuture
literal; valid bracketed IP literals, which the model also maps to `none`,
cannot arise from this repository's profile URLs. -/
def splitNetloc (s : Str) : Option (Str × Str) :=
  if s.take 2 = ['/', '/'] then
    if ((s.drop 2).takeWhile notDelim).contains '[' ||
        ((s.drop 2).takeWhile notDelim).contains ']' then none
    else some ((s.drop 2).takeWhile notDelim, (s.drop 2).dropWhile notDelim)
  else some ([], s)

/-- CPython `url.split('#', 1)` semantics: text before the first `#`,
and the fragment after it (empty when there is no `#`). -/
def splitHash (s : Str) : Str × Str :=
  (s.takeWhile (fun c => c != '#'), (s.dropWhile (fun c => c != '#')).drop 1)

/-- CPython `url.split('?', 1)` semantics, applied after the fragment has
been removed. -/
def splitQmark (s : Str) : Str × Str :=
  (s.takeWhile (fun c => c != '?'), (s.dropWhile (fun c => c != '?')).drop 1)

/-- CPython `uses_params`: the schemes for which `urlparse` separates
`;params` from the path. -/
def usesParams : List Str :=
  [[], "ftp".toList, "hdl".toList, "prospero".toList, "http".toList, "imap".toList,
   "https".toList, "shttp".toList, "rtsp".toList, "rtsps".toList, "rtspu".toList,
   "sip".toList, "sips".toList, "mms".toList, "sftp".toList, "tel".toList]

/-- The last `/`-separated segment of a path. -/
def lastSegment (p : Str) : Str := (p.reverse.takeWhile (fun c => c != '/')).reverse

/-- CPython `urlparse` parameter stripping (`_splitparams`), returning the
path with `;params` removed: for a recognised scheme, when the path
contains `;`, the first `;` at or after the last `/` (or anywhere, if the
path has no `/`) cuts the path. -/
def splitParams (scheme : Str) (p : Str) : Str :=
  if usesParams.contains scheme && p.contains ';' then
    if p.contains '/' then
      if (lastSegment p).contains ';' then
        p.take (p.length - (lastSegment p).length) ++
          (lastSegment p).takeWhile (fun c => c != ';')
      else p
    else p.takeWhile (fun c => c != ';')
  else p

/-- The components of `urlparse` that `normalize_url` reads: scheme,
netloc, path (with params already stripped) and query. -/
structure Parsed where
  scheme : Str
  netloc : Str
  path : Str
  query : Str
deriving DecidableEq

/-- CPython 3.11 `urlparse`, restricted to the fields the program uses.
`none` models the `ValueError` that `normalize_url` catches.  Modelling
notes: bracketed (IPv6) netlocs are mapped to `none` (see `splitNetloc`),
and the `_checknetloc` NFKC guard, which can only fire on exotic non-ASCII
netlocs, is omitted. -/
def pyUrlparse (s : Str) : Option Parsed :=
  let s1 := sanitizeUrl s
  let sch := (splitScheme s1).1
  let r1 := (splitScheme s1).2
  match splitNetloc r1 with
  | none => none
  | some (nl, r2) =>
    let r3 := (splitHash r2).1
    let pa := (splitQmark r3).1
    let q := (splitQmark r3).2
    some ⟨sch, nl, splitParams sch pa, q⟩

/-- The slash `urlunparse` puts in front of a nonempty relative path when
a netloc (or the `https` scheme) is present. -/
def ensureSlash (p : Str) : Str :=
  if !p.isEmpty && p.take 1 ≠ ['/'] then '/' :: p else p

/-- CPython 3.11 `urlunparse (('https', netloc, path, '', query, ''))`.
The scheme is fixed to `https` (which is in `uses_netloc`), params and
fragment are empty, exactly as `normalize_url` calls it. -/
def pyUnparse (netloc path query : Str) : Str :=
  let url :=
    if !netloc.isEmpty || path.take 2 ≠ ['/', '/'] then
      '/' :: '/' :: (netloc ++ ensureSlash path)
    else path
  let url2 := "https:".toList ++ url
  if !query.isEmpty then url2 ++ '?' :: query else url2

/-- `normalize_url` of graphlinkdb.py (the identical copies in
graphlink.py and graphlink_export.py are this same function):
reject non-`http`-prefixed input, lowercase, parse, drop `www.` from the
netloc, strip trailing slashes from the path, keep only `id=` query
parameters on `profile.php` paths and drop the query otherwise, and
reassemble with scheme `https`. -/
def normalize_url (url : Str) : Option Str :=
  if ("http".toList).isPrefixOf url then
    match pyUrlparse (lowerStr url) with
    | none => none
    | some p =>
      let netloc := removeWWW p.netloc
      let path := rstripSlash p.path
      if containsSub ("profile.php".toList) path && !p.query.isEmpty then
        let kept := (splitAmp p.query).filter (fun q => ("id=".toList).isPrefixOf q)
        some (pyUnparse netloc path (joinAmp kept))
      else some (pyUnparse netloc path [])
  else none

/-- The host rule in the words of the spec (section 4.1, rule 3), for
comparison with the code: strip a leading `www.` from the host component,
and only a leading one. -/
def stripLeadingWWW (s : Str) : Str :=
  if ("www.".toList).isPrefixOf s then s.drop 4 else s

/-- Python `os.path.splitext(p)[0]` (posix): cut at the last `.` that
lies after the last `/` and has at least one non-`.` character between
the start of the basename and itself. -/
def splitextRoot (p : Str) : Str :=
  let base := (p.reverse.takeWhile (fun c => c != '/')).reverse
  let afterDot := (base.reverse.takeWhile (fun c => c != '.')).reverse
  if base.contains '.' && (base.take (base.length - afterDot.length - 1)).any (fun c => c != '.') then
    p.take (p.length - afterDot.length - 1)
  else p

/-- `filename_to_owner_url` of graphlinkdb.py. -/
def filename_to_owner_url (filename : Str) : Str :=
  "https://facebook.com/profile.php?id=".toList ++ splitextRoot filename

/-- A row of the `profiles` table. -/
structure Profile where
  id : Nat
  url : Str
  name : Str
deriving DecidableEq

/-- The graphlink.sqlite database: the `profiles` table (unique ids and
urls in a well-formed database, see `DB.wf`) and the `friendships` table. -/
structure DB where
  profiles : List Profile
  friendships : List (Nat × Nat)
deriving DecidableEq

/-- The id SQLite assigns to a fresh `INTEGER PRIMARY KEY` row:
largest existing id plus one. -/
def nextId (db : DB) : Nat := (db.profiles.map Profile.id).foldr max 0 + 1

/-- One `INSERT INTO profiles ... ON CONFLICT(profile_url) DO UPDATE SET
name = excluded.name` statement. -/
def upsertProfile (db : DB) (u n : Str) : DB :=
  if db.profiles.any (fun p => p.url == u) then
    ⟨db.profiles.map (fun p => if p.url == u then ⟨p.id, p.url, n⟩ else p), db.friendships⟩
  else
    ⟨db.profiles ++ [⟨nextId db, u, n⟩], db.friendships⟩

/-- `SELECT id FROM profiles WHERE profile_url = ?` followed by
`fetchone()[0]` (first matching row in table order; the callers only use
it on urls that are present). -/
def lookupId (db : DB) (u : Str) : Nat :=
  match db.profiles.find? (fun p => p.url == u) with
  | some p => p.id
  | none => 0

/-- One `INSERT OR IGNORE INTO friendships` statement (the pair of ids is
the primary key). -/
def insertEdge (db : DB) (e : Nat × Nat) : DB :=
  if e ∈ db.friendships then db else ⟨db.profiles, db.friendships ++ [e]⟩

/-- The rows of one CSV unit after `dropna`, normalized and filtered as in
`process_csv_to_db`: pairs of identity key and display name.  (A
successful `normalize_url` result always starts with `https:`, so Python's
truthiness test on it coincides with the `some` test.) -/
def friendProfiles (rows : List (Str × Str)) : List (Str × Str) :=
  rows.filterMap (fun r =>
    match normalize_url r.1 with
    | some k => some (k, r.2)
    | none => none)

/-- The `cursor.executemany` batch upsert over a list of (url, name)
pairs, in order. -/
def upsertFold (db : DB) (profs : List (Str × Str)) : DB :=
  profs.foldl (fun d pr => upsertProfile d pr.1 pr.2) db

/-- The body of `process_csv_to_db` after the owner reference has
normalized successfully: batch-upsert the friend profiles (normalization
failures already dropped) and the owner profile, then insert the
owner-friend edges in canonical (min, max) order, skipping the owner
itself. -/
def ingestBody (db : DB) (ownerUrl rootName : Str) (rows : List (Str × Str)) : DB :=
  let profilesToAdd := friendProfiles rows ++ [(ownerUrl, rootName)]
  let db1 := upsertFold db profilesToAdd
  let ownerId := lookupId db1 ownerUrl
  let friendUrls := (profilesToAdd.map Prod.fst).filter (fun u => u ≠ ownerUrl)
  if friendUrls.isEmpty then db1
  else
    let friendIds := db1.profiles.filterMap (fun p =>
      if friendUrls.contains p.url then some p.id else none)
    let edges := friendIds.filterMap (fun fid =>
      if ownerId ≠ fid then some (min ownerId fid, max ownerId fid) else none)
    edges.foldl insertEdge db1

/-- `process_csv_to_db` of graphlinkdb.py, acting on the database state.
`fileName` is the basename of the CSV file and `rows` its parsed
(URL, Name) rows after `dropna`; CSV discovery and pandas parsing are the
external collaborator of spec section 6. -/
def process_csv_to_db (db : DB) (fileName : Str) (rows : List (Str × Str)) : DB :=
  match normalize_url (filename_to_owner_url fileName) with
  | none => db
  | some ownerUrl => ingestBody db ownerUrl (splitextRoot fileName) rows

/-- Well-formedness the SQLite schema guarantees: distinct primary-key
ids and distinct (UNIQUE-constrained) profile urls. -/
def DB.wf (db : DB) : Prop :=
  (db.profiles.map Profile.id).Nodup ∧ (db.profiles.map Profile.url).Nodup

/-- The display name the last assignment to `u` in a batch leaves behind
(proof infrastructure for the last-write-wins upsert semantics). -/
def finalNames (profs : List (Str × Str)) (u : Str) : Option Str :=
  (profs.reverse.find? (fun pr => pr.1 == u)).map Prod.snd

/-- Rewrite every profile name to the last name its url receives in the
batch (proof infrastructure). -/
def overrideNames (P : List Profile) (profs : List (Str × Str)) : List Profile :=
  P.map (fun p =>
    match finalNames profs p.url with
    | some n => ⟨p.id, p.url, n⟩
    | none => p)

/-- An undirected graph as `nx.from_pandas_edgelist` builds it: the nodes
are the endpoints occurring in the edge list (first-occurrence order), and
the raw edge list gives adjacency. -/
structure Graph where
  nodes : List Nat
  edges : List (Nat × Nat)
deriving DecidableEq

/-- Build the query graph from the `friendships` table. -/
def buildGraph (es : List (Nat × Nat)) : Graph :=
  ⟨(es.flatMap (fun e => [e.1, e.2])).dedup, es⟩

/-- Undirected adjacency. -/
def Graph.adj (g : Graph) (u v : Nat) : Bool :=
  g.edges.any (fun e => (e.1 == u && e.2 == v) || (e.1 == v && e.2 == u))

/-- `G.remove_nodes_from(bad)`: the listed nodes disappear and with them
every incident edge; other nodes remain even if isolated. -/
def Graph.removeNodes (g : Graph) (bad : List Nat) : Graph :=
  ⟨g.nodes.filter (fun v => !bad.contains v),
   g.edges.filter (fun e => !bad.contains e.1 && !bad.contains e.2)⟩

/-- Edge endpoints are nodes, and the node list has no duplicates. -/
def Graph.wf (g : Graph) : Prop :=
  (∀ e ∈ g.edges, e.1 ∈ g.nodes ∧ e.2 ∈ g.nodes) ∧ g.nodes.Nodup

/-- Walks in a graph: `Walk g u t l` means `l` is a node sequence from
`u` to `t` along edges of `g` (a single node must be a node of `g`). -/
inductive Walk (g : Graph) : Nat → Nat → List Nat → Prop where
  | nil (v : Nat) (h : v ∈ g.nodes) : Walk g v v [v]
  | cons (u v t : Nat) (l : List Nat) (ha : g.adj u v = true) (hw : Walk g v t l) :
      Walk g u t (u :: l)

/-- Depth-first enumeration of the simple paths from `u` to `t` that avoid
`visited`, neighbours explored in node-list order; `fuel` bounds the
recursion depth. -/
def pathsAux (g : Graph) : Nat → List Nat → Nat → Nat → List (List Nat)
  | 0, _, _, _ => []
  | fuel+1, visited, u, t =>
    if u = t then [[u]]
    else
      (g.nodes.filter (fun v => g.adj u v && !visited.contains v && v != u)).flatMap
        (fun v => (pathsAux g fuel (u :: visited) v t).map (fun p => u :: p))

/-- All simple paths from `s` to `t` (empty when either endpoint is not a
node), in the deterministic order of `pathsAux`. -/
def simplePaths (g : Graph) (s t : Nat) : List (List Nat) :=
  if g.nodes.contains s && g.nodes.contains t then
    pathsAux g g.nodes.length [] s t
  else []

/-- First element of minimal length. -/
def argminLen : List (List Nat) → Option (List Nat)
  | [] => none
  | p :: rest =>
    match argminLen rest with
    | none => some p
    | some q => some (if p.length ≤ q.length then p else q)

/-- Modelled from the spec: `nx.shortest_path(G, source, target)`
(networkx library code, not part of this repository) is, per spec section
4.5, an unweighted shortest path between the endpoints, any fixed
deterministic choice among ties; `none` models the `NetworkXNoPath`
outcome.  Here: the first minimal-length path of the deterministic
`simplePaths` enumeration. -/
def shortest_path (g : Graph) (s t : Nat) : Option (List Nat) :=
  argminLen (simplePaths g s t)

/-- Stable insertion into a length-sorted list of paths. -/
def insertByLen (p : List Nat) : List (List Nat) → List (List Nat)
  | [] => [p]
  | q :: rest => if q.length ≤ p.length then q :: insertByLen p rest else p :: q :: rest

/-- Stable sort of paths by non-decreasing length. -/
def sortByLen (L : List (List Nat)) : List (List Nat) := L.foldr insertByLen []

/-- Modelled from the spec: `nx.shortest_simple_paths(G, s, t)` consumed
up to its first `k` elements (networkx library code, not part of this
repository) is, per spec section 4.5, an enumeration of the simple paths
in non-decreasing length order that yields only the existing paths when
fewer than `k` exist.  Here: the stable length-sort of the deterministic
`simplePaths` enumeration, truncated to `k`. -/
def k_shortest_simple_paths (g : Graph) (s t : Nat) (k : Nat) : List (List Nat) :=
  (sortByLen (simplePaths g s t)).take k

/-- Add an element to a Python-set model (membership-based, insertion
order kept so the model is deterministic). -/
def addNode (s : List Nat) (x : Nat) : List Nat :=
  if s.contains x then s else s ++ [x]

/-- `all_nodes_in_paths.update(path)`. -/
def addNodes (s : List Nat) (xs : List Nat) : List Nat := xs.foldl addNode s

/-- Add an edge to the edge-set model. -/
def addEdge (s : List (Nat × Nat)) (e : Nat × Nat) : List (Nat × Nat) :=
  if s.contains e then s else s ++ [e]

/-- `all_edges_in_paths.update(zip(path[:-1], path[1:]))`. -/
def addEdges (s : List (Nat × Nat)) (es : List (Nat × Nat)) : List (Nat × Nat) :=
  es.foldl addEdge s

/-- `zip(path[:-1], path[1:])`: the traversed edges of a path. -/
def pathEdges (p : List Nat) : List (Nat × Nat) := p.zip p.tail

/-- `itertools.combinations(targets, 2)` in list order. -/
def pairsOf : List Nat → List (Nat × Nat)
  | [] => []
  | x :: rest => rest.map (fun y => (x, y)) ++ pairsOf rest

/-- One iteration of the pathfinding loops of graphlink_export.py `main`:
accumulate the nodes and traversed edges of the shortest path for one
endpoint pair, skipping the pair when there is no path
(`except nx.NetworkXNoPath`). -/
def mtuStep (g : Graph) (acc : List Nat × List (Nat × Nat)) (pr : Nat × Nat) :
    List Nat × List (Nat × Nat) :=
  match shortest_path g pr.1 pr.2 with
  | some p => (addNodes acc.1 p, addEdges acc.2 (pathEdges p))
  | none => acc

/-- The pathfinding section of graphlink_export.py `main`: union the
shortest paths from the source to every target, then (when there is more
than one target) between every unordered pair of targets. -/
def multi_target_union (g : Graph) (sourceId : Nat) (targetIds : List Nat) :
    List Nat × List (Nat × Nat) :=
  let acc1 := (targetIds.map (fun t => (sourceId, t))).foldl (mtuStep g) ([], [])
  if targetIds.length > 1 then (pairsOf targetIds).foldl (mtuStep g) acc1 else acc1

/-- The `type` field of an exported node. -/
inductive NodeTag where
  | source
  | target
  | intermediate
deriving DecidableEq

/-- Node tagging of graphlink_export.py `main`: `source` wins, then
`target`, else `intermediate`. -/
def tagOf (sourceId : Nat) (targetIds : List Nat) (n : Nat) : NodeTag :=
  if n = sourceId then .source
  else if targetIds.contains n then .target
  else .intermediate

/-- The exported node records (id paired with its tag). -/
def exportNodes (g : Graph) (sourceId : Nat) (targetIds : List Nat) :
    List (Nat × NodeTag) :=
  (multi_target_union g sourceId targetIds).1.map (fun n => (n, tagOf sourceId targetIds n))

/-- `url_to_id.get(url)`: the dictionary built from the profiles table
maps a url to the id of its last row. -/
def dictGet (db : DB) (u : Str) : Option Nat :=
  db.profiles.foldl (fun acc p => if p.url == u then some p.id else acc) none

/-- The blacklisted node ids of graphlink.py:
`[url_to_id.get(url) for url in blacklist_urls if url_to_id.get(url)]`.
Python truthiness drops a (schema-impossible) id 0. -/
def blacklistIds (db : DB) (bl : List Str) : List Nat :=
  bl.filterMap (fun u =>
    match dictGet db u with
    | some i => if i ≠ 0 then some i else none
    | none => none)

/-- The graph a query session works on: the friendship graph with the
blacklisted nodes removed (`G_temp`). -/
def filteredView (db : DB) (bl : List Str) : Graph :=
  (buildGraph db.friendships).removeNodes (blacklistIds db bl)

/-- Outcome of one query of `run_shortest_path_tool` (graphlink.py).
`notInDb`: an endpoint fails to normalize or is not a profile url;
`endpointExcluded`: an endpoint is on the blacklist ("Error: Start or
Target URL is on the blacklist.");
`nodeMissing`: an endpoint is a profile but not a node of the filtered
graph, where `nx.shortest_path` raises the uncaught `NodeNotFound`;
`noPath`: the caught `nx.NetworkXNoPath`;
`path p`: a successful shortest-path answer. -/
inductive QueryOutcome where
  | notInDb
  | endpointExcluded
  | nodeMissing
  | noPath
  | path (p : List Nat)
deriving DecidableEq

/-- One iteration of the query loop of `run_shortest_path_tool`
(graphlink.py, single-path branch): normalize both inputs, look them up,
reject blacklisted endpoints, then run the shortest-path query on the
filtered graph. -/
def run_shortest_path_query (db : DB) (bl : List Str) (startRaw endRaw : Str) :
    QueryOutcome :=
  match (normalize_url startRaw).bind (dictGet db), (normalize_url endRaw).bind (dictGet db) with
  | some s, some e =>
    if (blacklistIds db bl).contains s || (blacklistIds db bl).contains e then
      .endpointExcluded
    else
      let gt := filteredView db bl
      if gt.nodes.contains s && gt.nodes.contains e then
        match shortest_path gt s e with
        | some p => .path p
        | none => .noPath
      else .nodeMissing
  | _, _ => .notInDb

/-- Model of `json.dump(l, f, indent=4)` for a list of strings writing one
item per line (string escaping is not modelled; blacklist entries are
normalized keys without quotes or backslashes). -/
def jsonItems : List Str → Str
  | [] => []
  | [s] => "    ".toList ++ '\"' :: s ++ ['\"']
  | s :: rest => "    ".toList ++ '\"' :: s ++ ['\"', ',', '\n'] ++ jsonItems rest

/-- Serialized form of the blacklist file. -/
def jsonEncodeList (l : List Str) : Str :=
  match l with
  | [] => "[]".toList
  | _ => '[' :: '\n' :: (jsonItems l ++ ['\n', ']'])

/-- The successive contents of the blacklist file during `save_blacklist`
(graphlink.py): the previous content, then the empty file that
`open(path, 'w')` truncates to, then the serialized new list written by
`json.dump`.  There is no temporary file and no rename. -/
def save_blacklist_states (prev : Option Str) (bl : List Str) : List (Option Str) :=
  [prev, some [], some (jsonEncodeList bl)]


/-! ### Generic list and character lemmas -/

theorem takeWhile_append_of_all {p : Char → Bool} {a b : Str} (h : ∀ x ∈ a, p x = true) :
    (a ++ b).takeWhile p = a ++ b.takeWhile p := by
  induction a with
  | nil => simp
  | cons c t ih =>
    simp only [List.cons_append, List.takeWhile_cons]
    rw [h c (by simp)]
    simp only [if_true]
    rw [ih (fun x hx => h x (by simp [hx]))]

theorem dropWhile_append_of_all {p : Char → Bool} {a b : Str} (h : ∀ x ∈ a, p x = true) :
    (a ++ b).dropWhile p = b.dropWhile p := by
  induction a with
  | nil => simp
  | cons c t ih =>
    simp only [List.cons_append, List.dropWhile_cons]
    rw [h c (by simp)]
    simp only [if_true]
    exact ih (fun x hx => h x (by simp [hx]))

theorem toNat_ofNat_valid (n : Nat) (h : n.isValidChar) : (Char.ofNat n).toNat = n := by
  rw [Char.ofNat, dif_pos h]
  simp [Char.ofNatAux, Char.toNat, UInt32.toNat, BitVec.ofNatLt]

theorem toLower_idem (c : Char) : c.toLower.toLower = c.toLower := by
  by_cases h : c.toNat ≥ 65 ∧ c.toNat ≤ 90
  · have hv : (c.toNat + 32).isValidChar := Or.inl (by omega)
    have h1 : c.toLower = Char.ofNat (c.toNat + 32) := by
      unfold Char.toLower
      rw [if_pos h]
    have h2 : (Char.ofNat (c.toNat + 32)).toNat = c.toNat + 32 := toNat_ofNat_valid _ hv
    rw [h1]
    unfold Char.toLower
    rw [if_neg (by omega)]
  · have h1 : c.toLower = c := by
      unfold Char.toLower
      rw [if_neg h]
    rw [h1, h1]

theorem lowerStr_append (a b : Str) : lowerStr (a ++ b) = lowerStr a ++ lowerStr b :=
  List.map_append _ a b

theorem lowerStr_idem (s : Str) : lowerStr (lowerStr s) = lowerStr s := by
  simp only [lowerStr, List.map_map]
  exact List.map_congr_left (fun c _ => toLower_idem c)

/-! ### normalize pipeline computation lemmas -/

theorem splitScheme_https (r : Str) : splitScheme ("https:".toList ++ r) = ("https".toList, r) := by
  show splitScheme ('h' :: 't' :: 't' :: 'p' :: 's' :: ':' :: r) = _
  unfold splitScheme
  simp +decide [List.takeWhile, lowerStr]

/-! ### C9: blacklist persistence -/

theorem jsonEncodeList_ne_nil (l : List Str) : jsonEncodeList l ≠ ([] : Str) := by
  cases l <;> simp [jsonEncodeList]

/-- C9: counterexample.  save_blacklist writes the blacklist file in
place: opening with mode w truncates it, so during the save of a two-key
blacklist the file passes through an empty state, which is not the
serialization of any list — the claimed no-empty-window property fails. -/
theorem claim_C9_counterexample :
    some ([] : Str) ∈ save_blacklist_states
        (some (jsonEncodeList ["k".toList])) ["k".toList, "m".toList]
      ∧ ∀ l : List Str, jsonEncodeList l ≠ ([] : Str) :=
  ⟨by decide, jsonEncodeList_ne_nil⟩

/-- C9 (amended): every mutation persists the new version on completion
(the last file state is the serialized new list), but the write is an
in-place truncate-then-write, not an atomic replace: the file passes
through an intermediate empty state that is not the serialization of any
blacklist. -/
theorem claim_C9 (prev : Option Str) (bl : List Str) :
    (save_blacklist_states prev bl).getLast? = some (some (jsonEncodeList bl))
      ∧ some ([] : Str) ∈ save_blacklist_states prev bl
      ∧ ∀ l : List Str, jsonEncodeList l ≠ ([] : Str) := by
  refine ⟨?_, ?_, jsonEncodeList_ne_nil⟩
  · simp [save_blacklist_states]
  · simp [save_blacklist_states]


/-! ### C10: the owner URL built from a filename always normalizes -/

theorem pyUrlparse_template (r : Str) :
    pyUrlparse ("https://facebook.com/profile.php?id=".toList ++ r) =
      some ⟨"https".toList, "facebook.com".toList, "/profile.php".toList,
        "id=".toList ++ ((r.filter (fun c => c != '\t' && c != '\r' && c != '\n')).takeWhile (fun c => c != '#'))⟩ := by
  have hsplit : "https://facebook.com/profile.php?id=".toList =
      "https:".toList ++ "//".toList ++ "facebook.com".toList ++
        ("/profile.php".toList ++ "?id=".toList) := by decide
  set F := fun c => c != '\t' && c != '\r' && c != '\n' with hF
  set r1 := r.filter F with hr1
  have hsan : sanitizeUrl ("https://facebook.com/profile.php?id=".toList ++ r) =
      "https://facebook.com/profile.php?id=".toList ++ r1 := by
    show sanitizeUrl ('h' :: ("ttps://facebook.com/profile.php?id=".toList ++ r)) = _
    unfold sanitizeUrl
    rw [List.dropWhile_cons]
    rw [show (('h' :: ("ttps://facebook.com/profile.php?id=".toList ++ r)))
          = "https://facebook.com/profile.php?id=".toList ++ r from rfl]
    rw [if_neg (by decide)]
    rw [List.filter_append]
    congr 1
  have hassoc : "https://facebook.com/profile.php?id=".toList ++ r1 =
      "https:".toList ++ ("//facebook.com/profile.php?id=".toList ++ r1) := by
    rw [show "https://facebook.com/profile.php?id=".toList =
          "https:".toList ++ "//facebook.com/profile.php?id=".toList from by decide,
        List.append_assoc]
  have hscheme : splitScheme (sanitizeUrl ("https://facebook.com/profile.php?id=".toList ++ r)) =
      ("https".toList, "//facebook.com/profile.php?id=".toList ++ r1) := by
    rw [hsan, hassoc, splitScheme_https]
  have hnet : splitNetloc ("//facebook.com/profile.php?id=".toList ++ r1) =
      some ("facebook.com".toList, "/profile.php?id=".toList ++ r1) := by
    unfold splitNetloc
    rw [show ("//facebook.com/profile.php?id=".toList ++ r1).take 2 = ['/', '/'] from rfl]
    rw [if_pos rfl]
    rw [show ("//facebook.com/profile.php?id=".toList ++ r1).drop 2 =
          "facebook.com".toList ++ ("/profile.php?id=".toList ++ r1) from by
      rw [show "//facebook.com/profile.php?id=".toList =
            "//".toList ++ ("facebook.com".toList ++ "/profile.php?id=".toList) from by decide,
          List.append_assoc]
      rfl]
    rw [takeWhile_append_of_all (by decide), dropWhile_append_of_all (by decide)]
    rw [show List.takeWhile notDelim ("/profile.php?id=".toList ++ r1) = [] from by
      show List.takeWhile notDelim ('/' :: ("profile.php?id=".toList ++ r1)) = []
      rw [List.takeWhile_cons, if_neg (by decide)]]
    rw [show List.dropWhile notDelim ("/profile.php?id=".toList ++ r1) =
          "/profile.php?id=".toList ++ r1 from by
      show List.dropWhile notDelim ('/' :: ("profile.php?id=".toList ++ r1)) = _
      rw [List.dropWhile_cons, if_neg (by decide)]
      rfl]
    rw [if_neg (by decide)]
    simp
  have hhash : splitHash ("/profile.php?id=".toList ++ r1) =
      ("/profile.php?id=".toList ++ r1.takeWhile (fun c => c != '#'),
        (("/profile.php?id=".toList ++ r1).dropWhile (fun c => c != '#')).drop 1) := by
    unfold splitHash
    rw [takeWhile_append_of_all (by decide)]
  have hq : splitQmark ("/profile.php?id=".toList ++ r1.takeWhile (fun c => c != '#')) =
      ("/profile.php".toList, "id=".toList ++ r1.takeWhile (fun c => c != '#')) := by
    rw [show "/profile.php?id=".toList ++ r1.takeWhile (fun c => c != '#') =
          "/profile.php".toList ++
            ('?' :: ("id=".toList ++ r1.takeWhile (fun c => c != '#'))) from by
      rw [show "/profile.php?id=".toList =
            "/profile.php".toList ++ ('?' :: "id=".toList) from by decide, List.append_assoc]
      rfl]
    unfold splitQmark
    rw [takeWhile_append_of_all (by decide), dropWhile_append_of_all (by decide)]
    rw [List.takeWhile_cons, if_neg (by decide), List.dropWhile_cons, if_neg (by decide)]
    simp
  simp only [pyUrlparse, hscheme, hnet, hhash, hq]
  rfl


/-- Whenever an input passes the http-prefix check and parses, normalize
returns a key (shared helper). -/
theorem normalize_isSome_of_parse (url : Str) (P : Parsed)
    (h1 : ("http".toList).isPrefixOf url = true)
    (h2 : pyUrlparse (lowerStr url) = some P) :
    (normalize_url url).isSome = true := by
  unfold normalize_url
  rw [if_pos h1, h2]
  dsimp only
  split <;> rfl

/-- The owner reference of any filename parses and normalizes (shared
helper). -/
theorem owner_isSome (f : Str) : (normalize_url (filename_to_owner_url f)).isSome = true := by
  apply normalize_isSome_of_parse _
    ⟨"https".toList, "facebook.com".toList, "/profile.php".toList,
      "id=".toList ++ (List.takeWhile (fun c => c != '#')
        ((lowerStr (splitextRoot f)).filter (fun c => c != '\t' && c != '\r' && c != '\n')))⟩
  · rfl
  · unfold filename_to_owner_url
    rw [lowerStr_append, show lowerStr ("https://facebook.com/profile.php?id=".toList) =
          "https://facebook.com/profile.php?id=".toList from by decide]
    exact pyUrlparse_template _

/-- The owner reference of any filename normalizes to some key (shared
helper). -/
theorem owner_normalizes (f : Str) :
    ∃ ow, normalize_url (filename_to_owner_url f) = some ow := by
  have h := owner_isSome f
  exact Option.isSome_iff_exists.1 h

/-- C10: for every filename, the owner reference built by
filename_to_owner_url normalizes successfully, so the "Invalid owner URL"
skip branch of process_csv_to_db is unreachable: a unit cannot fail with
InvalidOwnerIdentity. -/
theorem claim_C10 (f : Str) : (normalize_url (filename_to_owner_url f)).isSome = true :=
  owner_isSome f

/-! ### Ingestion lemmas: upsert folds and idempotence -/

theorem upsertProfile_friendships (db : DB) (u n : Str) :
    (upsertProfile db u n).friendships = db.friendships := by
  unfold upsertProfile
  split <;> rfl

theorem upsertFold_friendships (profs : List (Str × Str)) (db : DB) :
    (upsertFold db profs).friendships = db.friendships := by
  induction profs generalizing db with
  | nil => rfl
  | cons pr rest ih =>
    show (upsertFold (upsertProfile db pr.1 pr.2) rest).friendships = _
    rw [ih, upsertProfile_friendships]

theorem insertEdge_profiles (db : DB) (e : Nat × Nat) :
    (insertEdge db e).profiles = db.profiles := by
  unfold insertEdge
  split <;> rfl

theorem foldl_insertEdge_profiles (es : List (Nat × Nat)) (db : DB) :
    (es.foldl insertEdge db).profiles = db.profiles := by
  induction es generalizing db with
  | nil => rfl
  | cons e rest ih =>
    show (rest.foldl insertEdge (insertEdge db e)).profiles = _
    rw [ih, insertEdge_profiles]

theorem mem_insertEdge (db : DB) (e x : Nat × Nat) :
    x ∈ (insertEdge db e).friendships ↔ x ∈ db.friendships ∨ x = e := by
  unfold insertEdge
  split
  · next h => constructor
              · exact fun hx => Or.inl hx
              · rintro (hx | rfl)
                · exact hx
                · exact h
  · next h => simp

theorem mem_foldl_insertEdge (es : List (Nat × Nat)) (db : DB) (x : Nat × Nat) :
    x ∈ (es.foldl insertEdge db).friendships ↔ x ∈ db.friendships ∨ x ∈ es := by
  induction es generalizing db with
  | nil => simp
  | cons e rest ih =>
    show x ∈ (rest.foldl insertEdge (insertEdge db e)).friendships ↔ _
    rw [ih, mem_insertEdge]
    simp only [List.mem_cons]
    tauto

theorem foldl_insertEdge_of_mem (es : List (Nat × Nat)) (db : DB)
    (h : ∀ e ∈ es, e ∈ db.friendships) : es.foldl insertEdge db = db := by
  induction es generalizing db with
  | nil => rfl
  | cons e rest ih =>
    show rest.foldl insertEdge (insertEdge db e) = db
    have he : insertEdge db e = db := by
      unfold insertEdge
      rw [if_pos (h e (by simp))]
    rw [he]
    exact ih db (fun e' he' => h e' (by simp [he']))

theorem upsert_present_self (db : DB) (u n : Str) :
    ∃ p ∈ (upsertProfile db u n).profiles, p.url = u := by
  unfold upsertProfile
  split
  · next h =>
    rw [List.any_eq_true] at h
    obtain ⟨p, hp, hpu⟩ := h
    exact ⟨⟨p.id, p.url, n⟩, List.mem_map.2 ⟨p, hp, by rw [if_pos hpu]⟩, by simpa using hpu⟩
  · next h =>
    exact ⟨⟨nextId db, u, n⟩, by simp, rfl⟩

theorem upsert_present_mono (db : DB) (u n v : Str)
    (h : ∃ p ∈ db.profiles, p.url = v) :
    ∃ p ∈ (upsertProfile db u n).profiles, p.url = v := by
  obtain ⟨p, hp, rfl⟩ := h
  unfold upsertProfile
  split
  · by_cases hc : (p.url == u) = true
    · exact ⟨⟨p.id, p.url, n⟩, List.mem_map.2 ⟨p, hp, by rw [if_pos hc]⟩, rfl⟩
    · exact ⟨p, List.mem_map.2 ⟨p, hp, by rw [if_neg hc]⟩, rfl⟩
  · exact ⟨p, by simp [hp], rfl⟩

theorem upsertFold_present_mono (profs : List (Str × Str)) (db : DB) (v : Str)
    (h : ∃ p ∈ db.profiles, p.url = v) :
    ∃ p ∈ (upsertFold db profs).profiles, p.url = v := by
  induction profs generalizing db with
  | nil => exact h
  | cons pr rest ih =>
    exact ih (upsertProfile db pr.1 pr.2) (upsert_present_mono db pr.1 pr.2 v h)

theorem upsertFold_present (profs : List (Str × Str)) (db : DB) (u : Str)
    (h : u ∈ profs.map Prod.fst) :
    ∃ p ∈ (upsertFold db profs).profiles, p.url = u := by
  induction profs generalizing db with
  | nil => simp at h
  | cons pr rest ih =>
    rcases List.mem_cons.1 h with h1 | h2
    · exact upsertFold_present_mono rest (upsertProfile db pr.1 pr.2) u
        (h1 ▸ upsert_present_self db pr.1 pr.2)
    · exact ih (upsertProfile db pr.1 pr.2) h2

theorem mem_upsert_of_url_ne (db : DB) (u n : Str) (p : Profile)
    (hp : p ∈ (upsertProfile db u n).profiles) (hne : p.url ≠ u) :
    p ∈ db.profiles := by
  unfold upsertProfile at hp
  split at hp
  · obtain ⟨q, hq, hqe⟩ := List.mem_map.1 hp
    by_cases hc : (q.url == u) = true
    · rw [if_pos hc] at hqe
      exact absurd (by rw [← hqe]; simpa using hc) hne
    · rw [if_neg hc] at hqe
      exact hqe ▸ hq
  · rcases List.mem_append.1 hp with h1 | h2
    · exact h1
    · simp at h2
      exact absurd (by rw [h2]) hne

theorem mem_upsertFold_not_mentioned (profs : List (Str × Str)) (db : DB) (p : Profile)
    (hp : p ∈ (upsertFold db profs).profiles) (hno : p.url ∉ profs.map Prod.fst) :
    p ∈ db.profiles := by
  induction profs generalizing db with
  | nil => exact hp
  | cons pr rest ih =>
    have h1 : p ∈ (upsertProfile db pr.1 pr.2).profiles :=
      ih (upsertProfile db pr.1 pr.2) hp (fun hm => hno (by simp [hm]))
    exact mem_upsert_of_url_ne db pr.1 pr.2 p h1 (fun he => hno (by simp [he]))

theorem upsert_name_of_url_eq (db : DB) (u n : Str) (p : Profile)
    (hp : p ∈ (upsertProfile db u n).profiles) (he : p.url = u) :
    p.name = n := by
  unfold upsertProfile at hp
  split at hp
  · obtain ⟨q, hq, hqe⟩ := List.mem_map.1 hp
    by_cases hc : (q.url == u) = true
    · rw [if_pos hc] at hqe
      rw [← hqe]
    · rw [if_neg hc] at hqe
      subst hqe
      exact absurd (by simpa using he) hc
  · next hany =>
    rcases List.mem_append.1 hp with h1 | h2
    · exfalso
      apply hany
      rw [List.any_eq_true]
      exact ⟨p, h1, by simpa using he⟩
    · simp at h2
      rw [h2]

theorem finalNames_eq_none_iff (profs : List (Str × Str)) (u : Str) :
    finalNames profs u = none ↔ u ∉ profs.map Prod.fst := by
  unfold finalNames
  simp only [Option.map_eq_none', List.find?_eq_none]
  constructor
  · intro h hm
    obtain ⟨pr, hpr, he⟩ := List.mem_map.1 hm
    exact absurd (by simpa using he) (h pr (by simp [hpr]))
  · intro h pr hpr he
    exact h (List.mem_map.2 ⟨pr, by simpa using hpr, by simpa using he⟩)

theorem finalNames_cons (u0 n0 : Str) (rest : List (Str × Str)) (u : Str) :
    finalNames ((u0, n0) :: rest) u =
      (finalNames rest u).or (if u0 == u then some n0 else none) := by
  unfold finalNames
  rw [List.reverse_cons, List.find?_append]
  cases hf : List.find? (fun pr => pr.1 == u) rest.reverse with
  | none =>
    by_cases h : u0 = u
    · simp [hf, List.find?, h]
    · have hb : (u0 == u) = false := beq_eq_false_iff_ne.mpr h
      simp [hf, List.find?, h, hb]
  | some pr => simp [hf]

theorem name_settled_after_fold (profs : List (Str × Str)) (db : DB) (p : Profile)
    (hp : p ∈ (upsertFold db profs).profiles) (n : Str)
    (hf : finalNames profs p.url = some n) : p.name = n := by
  induction profs generalizing db with
  | nil => simp [finalNames] at hf
  | cons pr rest ih =>
    have hp1 : p ∈ (upsertFold (upsertProfile db pr.1 pr.2) rest).profiles := hp
    rw [show pr = (pr.1, pr.2) from rfl, finalNames_cons] at hf
    cases hr : finalNames rest p.url with
    | some n1 =>
      rw [hr] at hf
      simp at hf
      exact ih (upsertProfile db pr.1 pr.2) hp1 (by rw [hr, hf])
    | none =>
      rw [hr] at hf
      simp only [Option.none_or] at hf
      by_cases hc : (pr.1 == p.url) = true
      · rw [if_pos hc] at hf
        simp at hf
        have hnm : p.url ∉ rest.map Prod.fst := (finalNames_eq_none_iff rest p.url).1 hr
        have h2 : p ∈ (upsertProfile db pr.1 pr.2).profiles :=
          mem_upsertFold_not_mentioned rest _ p hp1 hnm
        have hue : pr.1 = p.url := by simpa using hc
        rw [← hf]
        exact upsert_name_of_url_eq db pr.1 pr.2 p h2 hue.symm
      · rw [if_neg hc] at hf
        simp at hf

theorem overrideNames_nil (P : List Profile) : overrideNames P [] = P := by
  unfold overrideNames finalNames
  simp

theorem overrideNames_eq_self (P : List Profile) (profs : List (Str × Str))
    (h : ∀ p ∈ P, ∀ n, finalNames profs p.url = some n → p.name = n) :
    overrideNames P profs = P := by
  unfold overrideNames
  conv_rhs => rw [← List.map_id P]
  apply List.map_congr_left
  intro p hp
  cases hf : finalNames profs p.url with
  | none => rfl
  | some n =>
    have hn := h p hp n hf
    cases p with
    | mk i u nm =>
      simp only [id]
      have hn2 : nm = n := hn
      rw [hn2]

theorem upsertFold_profiles_override (profs : List (Str × Str)) (db : DB)
    (hall : ∀ u ∈ profs.map Prod.fst, ∃ p ∈ db.profiles, p.url = u) :
    (upsertFold db profs).profiles = overrideNames db.profiles profs := by
  induction profs generalizing db with
  | nil => exact (overrideNames_nil db.profiles).symm
  | cons pr rest ih =>
    have hpres : ∃ p ∈ db.profiles, p.url = pr.1 := hall pr.1 (by simp)
    have hany : db.profiles.any (fun p => p.url == pr.1) = true := by
      rw [List.any_eq_true]
      obtain ⟨p, hp, he⟩ := hpres
      exact ⟨p, hp, by simpa using he⟩
    have hup : upsertProfile db pr.1 pr.2 =
        ⟨db.profiles.map (fun p => if p.url == pr.1 then ⟨p.id, p.url, pr.2⟩ else p),
          db.friendships⟩ := by
      unfold upsertProfile
      rw [if_pos hany]
    have hstep : upsertFold db (pr :: rest) =
        upsertFold (upsertProfile db pr.1 pr.2) rest := rfl
    rw [hstep, hup]
    rw [ih]
    · unfold overrideNames
      rw [List.map_map]
      apply List.map_congr_left
      intro p _
      simp only [Function.comp]
      by_cases hc : (p.url == pr.1) = true
      · rw [if_pos hc]
        have he : p.url = pr.1 := by simpa using hc
        rw [show pr = (pr.1, pr.2) from rfl, finalNames_cons]
        cases hr : finalNames rest p.url with
        | some n => simp
        | none =>
          have hb : (pr.1 == p.url) = true := by simpa using he.symm
          simp [hb]
      · rw [if_neg hc]
        have he : p.url ≠ pr.1 := by simpa using hc
        rw [show pr = (pr.1, pr.2) from rfl, finalNames_cons]
        cases hr : finalNames rest p.url with
        | some n => simp
        | none =>
          have hb : (pr.1 == p.url) = false := beq_eq_false_iff_ne.mpr (Ne.symm he)
          simp [hb]
    · intro u hu
      obtain ⟨p, hp, he⟩ := hall u (by simp [hu])
      refine ⟨if p.url == pr.1 then ⟨p.id, p.url, pr.2⟩ else p, ?_, ?_⟩
      · exact List.mem_map.2 ⟨p, hp, rfl⟩
      · split <;> simpa using he

theorem DB_eq (a b : DB) (h1 : a.profiles = b.profiles)
    (h2 : a.friendships = b.friendships) : a = b := by
  cases a
  cases b
  simp_all

theorem lookupId_congr (a b : DB) (h : a.profiles = b.profiles) (u : Str) :
    lookupId a u = lookupId b u := by
  unfold lookupId
  rw [h]

theorem upsertFold_stable (db db2 : DB) (profs : List (Str × Str))
    (hprof : db2.profiles = (upsertFold db profs).profiles) :
    upsertFold db2 profs = db2 := by
  apply DB_eq
  · rw [upsertFold_profiles_override profs db2 (fun u hu => by
      rw [hprof]; exact upsertFold_present profs db u hu)]
    apply overrideNames_eq_self
    intro p hp n hf
    rw [hprof] at hp
    exact name_settled_after_fold profs db p hp n hf
  · exact upsertFold_friendships profs db2

theorem ingestBody_idem (db : DB) (ow root : Str) (rows : List (Str × Str)) :
    ingestBody (ingestBody db ow root rows) ow root rows = ingestBody db ow root rows := by
  set d1 := ingestBody db ow root rows with hd1
  have hprofiles : d1.profiles =
      (upsertFold db (friendProfiles rows ++ [(ow, root)])).profiles := by
    rw [hd1]
    simp only [ingestBody]
    split
    · rfl
    · exact foldl_insertEdge_profiles _ _
  have hB : upsertFold d1 (friendProfiles rows ++ [(ow, root)]) = d1 :=
    upsertFold_stable db d1 _ hprofiles
  have hlook : lookupId d1 ow =
      lookupId (upsertFold db (friendProfiles rows ++ [(ow, root)])) ow :=
    lookupId_congr _ _ hprofiles ow
  show ingestBody d1 ow root rows = d1
  simp only [ingestBody]
  rw [hB]
  split
  · rfl
  · next hne =>
    apply foldl_insertEdge_of_mem
    intro e he
    rw [hprofiles, hlook] at he
    have hd1v : d1 =
        ((((upsertFold db (friendProfiles rows ++ [(ow, root)])).profiles.filterMap
            (fun p => if (((friendProfiles rows ++ [(ow, root)]).map Prod.fst).filter
                (fun u => u ≠ ow)).contains p.url then some p.id else none)).filterMap
          (fun fid => if lookupId (upsertFold db (friendProfiles rows ++ [(ow, root)])) ow ≠ fid
            then some (min (lookupId (upsertFold db (friendProfiles rows ++ [(ow, root)])) ow) fid,
                  max (lookupId (upsertFold db (friendProfiles rows ++ [(ow, root)])) ow) fid)
            else none)).foldl insertEdge
          (upsertFold db (friendProfiles rows ++ [(ow, root)]))) := by
      rw [hd1]
      simp only [ingestBody]
      rw [if_neg hne]
    rw [hd1v]
    exact (mem_foldl_insertEdge _ _ e).2 (Or.inr he)

/-- Re-running `process_csv_to_db` on its own output is the identity
(shared helper for C1). -/
theorem process_csv_idem (db : DB) (f : Str) (rows : List (Str × Str)) :
    process_csv_to_db (process_csv_to_db db f rows) f rows =
      process_csv_to_db db f rows := by
  cases how : normalize_url (filename_to_owner_url f) with
  | none => simp [process_csv_to_db, how]
  | some ow =>
    simp only [process_csv_to_db, how]
    exact ingestBody_idem db ow (splitextRoot f) rows

/-- C1: re-ingesting an identical unit a second time leaves the database
unchanged: the profile count, the friendship count, and every profile row
(in particular every display name) agree between one run and two runs. -/
theorem claim_C1 (db : DB) (f : Str) (rows : List (Str × Str)) :
    (process_csv_to_db (process_csv_to_db db f rows) f rows).profiles.length =
        (process_csv_to_db db f rows).profiles.length
      ∧ (process_csv_to_db (process_csv_to_db db f rows) f rows).friendships.length =
        (process_csv_to_db db f rows).friendships.length
      ∧ ∀ p : Profile,
          p ∈ (process_csv_to_db (process_csv_to_db db f rows) f rows).profiles ↔
            p ∈ (process_csv_to_db db f rows).profiles := by
  rw [process_csv_idem]
  exact ⟨rfl, rfl, fun p => Iff.rfl⟩

/-! ### Well-formedness preservation and the edge characterization -/

theorem mem_le_foldr_max (l : List Nat) (i : Nat) (h : i ∈ l) : i ≤ l.foldr max 0 := by
  induction l with
  | nil => simp at h
  | cons a t ih =>
    rcases List.mem_cons.1 h with rfl | hm
    · exact Nat.le_max_left _ _
    · exact le_trans (ih hm) (Nat.le_max_right _ _)

theorem upsertProfile_wf (db : DB) (u n : Str) (h : db.wf) :
    (upsertProfile db u n).wf := by
  obtain ⟨hid, hurl⟩ := h
  unfold upsertProfile
  split
  · constructor
    · show ((db.profiles.map fun p =>
          if p.url == u then (⟨p.id, p.url, n⟩ : Profile) else p).map Profile.id).Nodup
      rw [List.map_map]
      have he : (Profile.id ∘ fun p => if p.url == u then (⟨p.id, p.url, n⟩ : Profile) else p)
          = Profile.id := by
        funext p
        simp only [Function.comp]
        by_cases hc : (p.url == u) = true
        · rw [if_pos hc]
        · rw [if_neg hc]
      rw [he]
      exact hid
    · show ((db.profiles.map fun p =>
          if p.url == u then (⟨p.id, p.url, n⟩ : Profile) else p).map Profile.url).Nodup
      rw [List.map_map]
      have he : (Profile.url ∘ fun p => if p.url == u then (⟨p.id, p.url, n⟩ : Profile) else p)
          = Profile.url := by
        funext p
        simp only [Function.comp]
        by_cases hc : (p.url == u) = true
        · rw [if_pos hc]
        · rw [if_neg hc]
      rw [he]
      exact hurl
  · next hany =>
    constructor
    · show ((db.profiles ++ [(⟨nextId db, u, n⟩ : Profile)]).map Profile.id).Nodup
      rw [List.map_append]
      apply List.Nodup.append hid (List.nodup_singleton _)
      intro i hi hi2
      simp at hi2
      have hle : i ≤ (db.profiles.map Profile.id).foldr max 0 := mem_le_foldr_max _ i hi
      rw [hi2] at hle
      unfold nextId at hle
      omega
    · show ((db.profiles ++ [(⟨nextId db, u, n⟩ : Profile)]).map Profile.url).Nodup
      rw [List.map_append]
      apply List.Nodup.append hurl (List.nodup_singleton _)
      intro v hv hv2
      simp at hv2
      obtain ⟨p, hp, hpu⟩ := List.mem_map.1 hv
      apply hany
      rw [List.any_eq_true]
      exact ⟨p, hp, by rw [hpu, hv2]; exact beq_self_eq_true u⟩

theorem upsertFold_wf (profs : List (Str × Str)) (db : DB) (h : db.wf) :
    (upsertFold db profs).wf := by
  induction profs generalizing db with
  | nil => exact h
  | cons pr rest ih => exact ih _ (upsertProfile_wf db pr.1 pr.2 h)

theorem lookupId_of_mem_wf (db : DB) (p : Profile) (hwf : db.wf)
    (hp : p ∈ db.profiles) : lookupId db p.url = p.id := by
  unfold lookupId
  cases hq : db.profiles.find? (fun q => q.url == p.url) with
  | none =>
    rw [List.find?_eq_none] at hq
    exact absurd (beq_self_eq_true p.url) (hq p hp)
  | some q =>
    have hqm : q ∈ db.profiles := List.mem_of_find?_eq_some hq
    have hqu : q.url = p.url := by
      have := List.find?_some hq
      simpa using this
    have : q = p := List.inj_on_of_nodup_map hwf.2 hqm hp hqu
    rw [this]

theorem id_inj_of_wf (db : DB) (p q : Profile) (hwf : db.wf)
    (hp : p ∈ db.profiles) (hq : q ∈ db.profiles) (he : p.id = q.id) : p = q :=
  List.inj_on_of_nodup_map hwf.1 hp hq he

theorem ingestBody_profiles (db : DB) (ow root : Str) (rows : List (Str × Str)) :
    (ingestBody db ow root rows).profiles =
      (upsertFold db (friendProfiles rows ++ [(ow, root)])).profiles := by
  simp only [ingestBody]
  split
  · rfl
  · exact foldl_insertEdge_profiles _ _

theorem ingest_edges_iff (db : DB) (ow root : Str) (rows : List (Str × Str))
    (hwf : db.wf) (e : Nat × Nat) :
    e ∈ (ingestBody db ow root rows).friendships ↔
      (e ∈ db.friendships ∨
        ∃ k, k ∈ (friendProfiles rows).map Prod.fst ∧ k ≠ ow ∧
          lookupId (ingestBody db ow root rows) k ≠
            lookupId (ingestBody db ow root rows) ow ∧
          e = (min (lookupId (ingestBody db ow root rows) ow)
                 (lookupId (ingestBody db ow root rows) k),
               max (lookupId (ingestBody db ow root rows) ow)
                 (lookupId (ingestBody db ow root rows) k))) := by
  set R := ingestBody db ow root rows with hR
  set profs := friendProfiles rows ++ [(ow, root)] with hprofs
  set db1 := upsertFold db profs with hdb1
  have hwf1 : db1.wf := upsertFold_wf profs db hwf
  have hrp : R.profiles = db1.profiles := by
    rw [hR, hdb1, hprofs]
    exact ingestBody_profiles db ow root rows
  have hlk : ∀ u, lookupId R u = lookupId db1 u := fun u => lookupId_congr R db1 hrp u
  set fUrls := (profs.map Prod.fst).filter (fun u => u ≠ ow) with hfU
  set fIds := db1.profiles.filterMap
    (fun p => if fUrls.contains p.url then some p.id else none) with hfI
  set eds := fIds.filterMap (fun fid => if lookupId db1 ow ≠ fid then
    some (min (lookupId db1 ow) fid, max (lookupId db1 ow) fid) else none) with hed
  have hmem : e ∈ R.friendships ↔ e ∈ db.friendships ∨ e ∈ eds := by
    rw [hR]
    simp only [ingestBody]
    rw [← hprofs, ← hdb1, ← hfU, ← hfI, ← hed]
    split
    · next hEmpty =>
      have hnil : fUrls = [] := List.isEmpty_iff.1 hEmpty
      have hidnil : fIds = [] := by
        rw [hfI, hnil]
        simp
      have hednil : eds = [] := by
        rw [hed, hidnil]
        simp
      rw [hdb1, upsertFold_friendships, hednil]
      simp
    · rw [mem_foldl_insertEdge, hdb1, upsertFold_friendships]
  rw [hmem]
  simp only [hlk]
  apply or_congr_right
  constructor
  · intro he
    rw [hed] at he
    obtain ⟨fid, hfid, hsome⟩ := List.mem_filterMap.1 he
    by_cases hne : lookupId db1 ow ≠ fid
    · rw [if_pos hne] at hsome
      have he2 := Option.some.inj hsome
      rw [hfI] at hfid
      obtain ⟨p, hp, hps⟩ := List.mem_filterMap.1 hfid
      by_cases hcont : fUrls.contains p.url = true
      · rw [if_pos hcont] at hps
        have hfid2 := Option.some.inj hps
        have hmemf : p.url ∈ fUrls := by simpa using hcont
        rw [hfU] at hmemf
        have hmf := List.mem_filter.1 hmemf
        have hne2 : p.url ≠ ow := by simpa using hmf.2
        have hkeys : p.url ∈ (friendProfiles rows).map Prod.fst := by
          have h1 := hmf.1
          rw [hprofs, List.map_append] at h1
          rcases List.mem_append.1 h1 with h2 | h2
          · exact h2
          · simp at h2
            exact absurd h2 hne2
        have hlkp : lookupId db1 p.url = p.id := lookupId_of_mem_wf db1 p hwf1 hp
        refine ⟨p.url, hkeys, hne2, ?_, ?_⟩
        · rw [hlkp, hfid2]
          exact fun hc => hne hc.symm
        · rw [hlkp, hfid2]
          exact he2.symm
      · rw [if_neg hcont] at hps
        exact absurd hps (by simp)
    · rw [if_neg hne] at hsome
      exact absurd hsome (by simp)
  · rintro ⟨k, hk, hkow, hkne, he2⟩
    have hkp : k ∈ profs.map Prod.fst := by
      rw [hprofs, List.map_append]
      exact List.mem_append.2 (Or.inl hk)
    obtain ⟨pk, hpk, hpku⟩ := upsertFold_present profs db k hkp
    rw [← hdb1] at hpk
    have hlkk : lookupId db1 k = pk.id := by
      rw [← hpku]
      exact lookupId_of_mem_wf db1 pk hwf1 hpk
    have hkfU : k ∈ fUrls := by
      rw [hfU]
      exact List.mem_filter.2 ⟨hkp, by simpa using hkow⟩
    have hfidmem : pk.id ∈ fIds := by
      rw [hfI]
      refine List.mem_filterMap.2 ⟨pk, hpk, ?_⟩
      rw [if_pos (by rw [hpku]; simpa using hkfU)]
    have hane : lookupId db1 ow ≠ pk.id := by
      rw [← hlkk]
      exact fun hc => hkne hc.symm
    rw [hed]
    refine List.mem_filterMap.2 ⟨pk.id, hfidmem, ?_⟩
    rw [if_pos hane, he2, hlkk]

/-- C2: ingesting a unit writes exactly the canonical owner-friend
friendship rows.  A row is new exactly when it is the (min, max)-ordered
pair of the owner id and the id of a normalized friend key distinct from
the owner key (so a unit with owner A and friends B, C writes exactly
A-B and A-C); every new row has strictly increasing components (no
self-loop, canonical order), and the profile_id_1 < profile_id_2
invariant is preserved. -/
theorem claim_C2 (db : DB) (f : Str) (rows : List (Str × Str)) (hwf : db.wf) :
    ∃ ow, normalize_url (filename_to_owner_url f) = some ow ∧
      (∀ e, e ∈ (process_csv_to_db db f rows).friendships ↔
          (e ∈ db.friendships ∨
            ∃ k, k ∈ (friendProfiles rows).map Prod.fst ∧ k ≠ ow ∧
              lookupId (process_csv_to_db db f rows) k ≠
                lookupId (process_csv_to_db db f rows) ow ∧
              e = (min (lookupId (process_csv_to_db db f rows) ow)
                     (lookupId (process_csv_to_db db f rows) k),
                   max (lookupId (process_csv_to_db db f rows) ow)
                     (lookupId (process_csv_to_db db f rows) k))))
      ∧ (∀ e ∈ (process_csv_to_db db f rows).friendships,
            e ∉ db.friendships → e.1 ≠ e.2 ∧ e.1 < e.2)
      ∧ ((∀ e ∈ db.friendships, e.1 < e.2) →
          ∀ e ∈ (process_csv_to_db db f rows).friendships, e.1 < e.2) := by
  obtain ⟨ow, how⟩ := owner_normalizes f
  have hunf : process_csv_to_db db f rows = ingestBody db ow (splitextRoot f) rows := by
    simp [process_csv_to_db, how]
  refine ⟨ow, how, ?_, ?_, ?_⟩
  · intro e
    rw [hunf]
    exact ingest_edges_iff db ow (splitextRoot f) rows hwf e
  · intro e he hnew
    rw [hunf] at he
    rcases (ingest_edges_iff db ow (splitextRoot f) rows hwf e).1 he with h1 | h2
    · exact absurd h1 hnew
    · obtain ⟨k, _, _, hne, he2⟩ := h2
      rw [he2]
      dsimp only
      omega
  · intro hinv e he
    rw [hunf] at he
    rcases (ingest_edges_iff db ow (splitextRoot f) rows hwf e).1 he with h1 | h2
    · exact hinv e h1
    · obtain ⟨k, _, _, hne, he2⟩ := h2
      rw [he2]
      dsimp only
      omega

/-- C2 witness: on the empty database, ingesting owner 1.csv with the
single friend https://b.com produces the canonical row (1, 2) and keeps
every row strictly ordered. -/
theorem claim_C2_witness :
    ((1, 2) : Nat × Nat) ∈ (process_csv_to_db ⟨[], []⟩ ("1.csv".toList)
        [("https://b.com/".toList, "B".toList)]).friendships
      ∧ ∀ e ∈ (process_csv_to_db ⟨[], []⟩ ("1.csv".toList)
          [("https://b.com/".toList, "B".toList)]).friendships, e.1 < e.2 := by
  obtain ⟨ow, how, hiff, hstrict, hpres⟩ := claim_C2 ⟨[], []⟩ ("1.csv".toList)
    [("https://b.com/".toList, "B".toList)] ⟨List.nodup_nil, List.nodup_nil⟩
  have how2 : ow = "https://facebook.com/profile.php?id=1".toList := by
    have h0 : normalize_url (filename_to_owner_url ("1.csv".toList)) =
        some ("https://facebook.com/profile.php?id=1".toList) := by decide
    exact Option.some.inj (how.symm.trans h0)
  subst how2
  constructor
  · apply (hiff (1, 2)).2
    right
    refine ⟨"https://b.com".toList, by decide, by decide, by decide, by decide⟩
  · intro e he
    exact hpres (fun e h => absurd h (List.not_mem_nil e)) e he

/-! ### Graph and walk lemmas -/

theorem adj_mem_nodes (g : Graph) (hwf : g.wf) (u v : Nat) (ha : g.adj u v = true) :
    u ∈ g.nodes ∧ v ∈ g.nodes := by
  unfold Graph.adj at ha
  rw [List.any_eq_true] at ha
  obtain ⟨e, he, hc⟩ := ha
  have hm := hwf.1 e he
  rw [Bool.or_eq_true] at hc
  rcases hc with h1 | h1
  · rw [Bool.and_eq_true] at h1
    have he1 : e.1 = u := by simpa using h1.1
    have he2 : e.2 = v := by simpa using h1.2
    exact ⟨he1 ▸ hm.1, he2 ▸ hm.2⟩
  · rw [Bool.and_eq_true] at h1
    have he1 : e.1 = v := by simpa using h1.1
    have he2 : e.2 = u := by simpa using h1.2
    exact ⟨he2 ▸ hm.2, he1 ▸ hm.1⟩

theorem walk_head (g : Graph) (u t : Nat) (l : List Nat) (hw : Walk g u t l) :
    ∃ r, l = u :: r := by
  cases hw with
  | nil v h => exact ⟨[], rfl⟩
  | cons u v t l ha hw => exact ⟨l, rfl⟩

theorem walk_end_mem (g : Graph) (u t : Nat) (l : List Nat) (hw : Walk g u t l) :
    t ∈ l := by
  induction hw with
  | nil v h => simp
  | cons u v t l ha hw ih => exact List.mem_cons_of_mem u ih

theorem walk_mem_nodes (g : Graph) (hwf : g.wf) (u t : Nat) (l : List Nat)
    (hw : Walk g u t l) : ∀ x ∈ l, x ∈ g.nodes := by
  induction hw with
  | nil v h =>
    intro x hx
    simp at hx
    rw [hx]
    exact h
  | cons u v t l ha hw ih =>
    intro x hx
    rcases List.mem_cons.1 hx with rfl | hm
    · exact (adj_mem_nodes g hwf x v ha).1
    · exact ih x hm

theorem walk_suffix (g : Graph) (a t : Nat) (l : List Nat) (hw : Walk g a t l) :
    ∀ l1 u l2, l = l1 ++ u :: l2 → Walk g u t (u :: l2) := by
  induction hw with
  | nil v h =>
    intro l1 u l2 he
    cases l1 with
    | nil =>
      simp at he
      obtain ⟨rfl, rfl⟩ := he
      exact Walk.nil _ h
    | cons x xs =>
      have hlen := congrArg List.length he
      simp at hlen
  | cons u0 v t l ha hw ih =>
    intro l1 u l2 he
    cases l1 with
    | nil =>
      simp at he
      obtain ⟨rfl, rfl⟩ := he
      exact Walk.cons u0 v t l ha hw
    | cons x xs =>
      simp at he
      exact ih xs u l2 he.2

theorem walk_to_simple (g : Graph) (s t : Nat) (w : List Nat) (hw : Walk g s t w) :
    ∃ p, Walk g s t p ∧ p.Nodup ∧ p.length ≤ w.length := by
  induction hw with
  | nil v h => exact ⟨[v], Walk.nil v h, List.nodup_singleton v, le_refl _⟩
  | cons u v t l ha hw ih =>
    obtain ⟨p, hp, hnd, hle⟩ := ih
    by_cases hu : u ∈ p
    · obtain ⟨l1, l2, rfl⟩ := List.append_of_mem hu
      refine ⟨u :: l2, walk_suffix g v t _ hp l1 u l2 rfl, ?_, ?_⟩
      · have hs : List.Sublist (u :: l2) (l1 ++ u :: l2) :=
          List.sublist_append_right l1 (u :: l2)
        exact hs.nodup hnd
      · have : (u :: l2).length ≤ (l1 ++ u :: l2).length := by
          simp
        calc (u :: l2).length ≤ (l1 ++ u :: l2).length := this
          _ ≤ l.length := hle
          _ ≤ (u :: l).length := by simp
    · exact ⟨u :: p, Walk.cons u v t p ha hp, List.nodup_cons.2 ⟨hu, hnd⟩,
        by simpa using hle⟩

theorem pathsAux_shape (g : Graph) (fuel : Nat) (vis : List Nat) (u t : Nat)
    (p : List Nat) (hp : p ∈ pathsAux g fuel vis u t) : ∃ r, p = u :: r := by
  cases fuel with
  | zero => simp [pathsAux] at hp
  | succ f =>
    unfold pathsAux at hp
    split at hp
    · simp at hp
      exact ⟨[], by simp [hp]⟩
    · obtain ⟨v, _, hm⟩ := List.mem_flatMap.1 hp
      obtain ⟨q, _, he⟩ := List.mem_map.1 hm
      exact ⟨q, he.symm⟩

theorem pathsAux_sound (g : Graph) :
    ∀ (fuel : Nat) (vis : List Nat) (u t : Nat) (p : List Nat),
      u ∈ g.nodes → u ∉ vis → p ∈ pathsAux g fuel vis u t →
      Walk g u t p ∧ p.Nodup ∧ ∀ x ∈ p, x ∉ vis := by
  intro fuel
  induction fuel with
  | zero => intro vis u t p _ _ hp; simp [pathsAux] at hp
  | succ f ih =>
    intro vis u t p hu hv hp
    unfold pathsAux at hp
    split at hp
    · next he =>
      simp at hp
      subst hp
      subst he
      exact ⟨Walk.nil u hu, List.nodup_singleton u, by simpa using hv⟩
    · obtain ⟨v, hvmem, hm⟩ := List.mem_flatMap.1 hp
      obtain ⟨q, hq, rfl⟩ := List.mem_map.1 hm
      have hvf := List.mem_filter.1 hvmem
      have hvn : v ∈ g.nodes := hvf.1
      have hprops := hvf.2
      have hprops2 : (g.adj u v = true ∧ v ∉ vis) ∧ v ≠ u := by
        have := hprops
        simp at this
        exact this
      have hadj : g.adj u v = true := hprops2.1.1
      have hvnotvis : v ∉ vis ∧ v ≠ u := ⟨hprops2.1.2, hprops2.2⟩
      have hvv : v ∉ u :: vis := by
        intro hc
        rcases List.mem_cons.1 hc with hc1 | hc1
        · exact hvnotvis.2 hc1
        · exact hvnotvis.1 hc1
      obtain ⟨hwq, hndq, havq⟩ := ih (u :: vis) v t q hvn hvv hq
      refine ⟨Walk.cons u v t q hadj hwq, ?_, ?_⟩
      · refine List.nodup_cons.2 ⟨?_, hndq⟩
        intro hc
        exact havq u hc (by simp)
      · intro x hx
        rcases List.mem_cons.1 hx with rfl | hm2
        · exact hv
        · intro hc
          exact havq x hm2 (List.mem_cons_of_mem u hc)

theorem filter_length_mono_pred (L : List Nat) (p q : Nat → Bool)
    (h : ∀ x, p x = true → q x = true) :
    (L.filter p).length ≤ (L.filter q).length := by
  induction L with
  | nil => simp
  | cons a L ih =>
    rw [List.filter_cons, List.filter_cons]
    by_cases hp : p a = true
    · rw [hp, h a hp]
      simpa using ih
    · rw [Bool.not_eq_true] at hp
      rw [hp]
      cases hq : q a with
      | true => simp only [if_true]; exact le_trans ih (by simp)
      | false => simpa using ih

theorem filter_visited_lt (L : List Nat) (vis : List Nat) (u : Nat)
    (hu : u ∈ L) (hv : u ∉ vis) :
    (L.filter (fun x => !(u :: vis).contains x)).length <
      (L.filter (fun x => !vis.contains x)).length := by
  induction L with
  | nil => simp at hu
  | cons a L ih =>
    by_cases hau : a = u
    · subst hau
      rw [List.filter_cons, List.filter_cons]
      rw [show (!(a :: vis).contains a) = false from by simp]
      rw [show (!vis.contains a) = true from by simpa using hv]
      have hmono : (L.filter (fun x => !(a :: vis).contains x)).length ≤
          (L.filter (fun x => !vis.contains x)).length := by
        apply filter_length_mono_pred
        intro x hx
        simp at hx ⊢
        exact hx.2
      simpa using Nat.lt_succ_of_le hmono
    · have hu2 : u ∈ L := by
        rcases List.mem_cons.1 hu with h | h
        · exact absurd h.symm hau
        · exact h
      rw [List.filter_cons, List.filter_cons]
      have heq : (!(u :: vis).contains a) = (!vis.contains a) := by
        rw [List.contains_cons]
        rw [show (a == u) = false from beq_eq_false_iff_ne.mpr hau]
        simp
      rw [heq]
      cases hb : (!vis.contains a) with
      | true => simpa using Nat.succ_lt_succ (ih hu2)
      | false => simpa using ih hu2

theorem pathsAux_complete (g : Graph) (hwf : g.wf) (p : List Nat) (u t : Nat)
    (hw : Walk g u t p) :
    ∀ (vis : List Nat) (fuel : Nat), p.Nodup → (∀ x ∈ p, x ∉ vis) →
      (g.nodes.filter (fun x => !vis.contains x)).length ≤ fuel →
      p ∈ pathsAux g fuel vis u t := by
  induction hw with
  | nil v h =>
    intro vis fuel hnd hav hfuel
    have hvmem : v ∈ g.nodes.filter (fun x => !vis.contains x) :=
      List.mem_filter.2 ⟨h, by simpa using hav v (by simp)⟩
    have hpos : 0 < (g.nodes.filter (fun x => !vis.contains x)).length :=
      List.length_pos_of_mem hvmem
    cases fuel with
    | zero => omega
    | succ f =>
      unfold pathsAux
      rw [if_pos rfl]
      simp
  | cons u v t l ha hw ih =>
    intro vis fuel hnd hav hfuel
    obtain ⟨l', rfl⟩ := walk_head g v t l hw
    have hvl : v ∈ v :: l' := by simp
    have hut : u ≠ t := by
      intro he
      have hte := walk_end_mem g v t (v :: l') hw
      rw [← he] at hte
      exact (List.nodup_cons.1 hnd).1 hte
    have hu : u ∈ g.nodes := (adj_mem_nodes g hwf u v ha).1
    have huvis : u ∉ vis := hav u (by simp)
    cases fuel with
    | zero =>
      exfalso
      have humem : u ∈ g.nodes.filter (fun x => !vis.contains x) :=
        List.mem_filter.2 ⟨hu, by simpa using huvis⟩
      have := List.length_pos_of_mem humem
      omega
    | succ f =>
      unfold pathsAux
      rw [if_neg hut]
      apply List.mem_flatMap.2
      refine ⟨v, ?_, ?_⟩
      · apply List.mem_filter.2
        refine ⟨(adj_mem_nodes g hwf u v ha).2, ?_⟩
        have h1 : v ∉ vis := hav v (List.mem_cons_of_mem u hvl)
        have h2 : v ≠ u := by
          intro he
          exact (List.nodup_cons.1 hnd).1 (he ▸ hvl)
        simp [ha, h1, h2]
      · apply List.mem_map.2
        refine ⟨v :: l', ?_, rfl⟩
        apply ih (u :: vis) f (List.nodup_cons.1 hnd).2
        · intro x hx
          intro hc
          rcases List.mem_cons.1 hc with rfl | hc2
          · exact (List.nodup_cons.1 hnd).1 hx
          · exact hav x (List.mem_cons_of_mem u hx) hc2
        · have hlt := filter_visited_lt g.nodes vis u hu huvis
          omega

theorem argminLen_eq_none (L : List (List Nat)) : argminLen L = none ↔ L = [] := by
  cases L with
  | nil => simp [argminLen]
  | cons p rest =>
    simp only [argminLen]
    cases argminLen rest <;> simp

theorem argminLen_mem (L : List (List Nat)) (p : List Nat) (h : argminLen L = some p) :
    p ∈ L := by
  induction L generalizing p with
  | nil => simp [argminLen] at h
  | cons q0 rest ih =>
    simp only [argminLen] at h
    cases hr : argminLen rest with
    | none =>
      rw [hr] at h
      simp at h
      simp [← h]
    | some r =>
      rw [hr] at h
      simp at h
      split at h
      · rw [← h]
        simp
      · rw [← h]
        exact List.mem_cons_of_mem q0 (ih r hr)

theorem argminLen_min (L : List (List Nat)) (p : List Nat) (h : argminLen L = some p) :
    ∀ q ∈ L, p.length ≤ q.length := by
  induction L generalizing p with
  | nil => simp
  | cons q0 rest ih =>
    intro q hq
    simp only [argminLen] at h
    cases hr : argminLen rest with
    | none =>
      rw [hr] at h
      simp at h
      have hrest : rest = [] := (argminLen_eq_none rest).1 hr
      subst hrest
      rcases List.mem_cons.1 hq with rfl | hm
      · rw [← h]
      · simp at hm
    | some r =>
      rw [hr] at h
      simp at h
      rcases List.mem_cons.1 hq with rfl | hm
      · split at h
        · rw [← h]
        · next hle =>
          rw [← h]
          omega
      · split at h
        · next hle =>
          rw [← h]
          exact le_trans hle (ih r hr q hm)
        · rw [← h]
          exact ih r hr q hm

/-- The simplePaths enumeration is sound: every enumerated list is a
simple walk. -/
theorem simplePaths_sound (g : Graph) (s t : Nat) (p : List Nat)
    (hp : p ∈ simplePaths g s t) : Walk g s t p ∧ p.Nodup := by
  unfold simplePaths at hp
  split at hp
  · next hg =>
    rw [Bool.and_eq_true] at hg
    have hs : s ∈ g.nodes := by simpa using hg.1
    have hres := pathsAux_sound g g.nodes.length [] s t p hs (by simp) hp
    exact ⟨hres.1, hres.2.1⟩
  · simp at hp

/-- The simplePaths enumeration is complete for simple walks. -/
theorem simplePaths_complete (g : Graph) (hwf : g.wf) (s t : Nat) (p : List Nat)
    (hw : Walk g s t p) (hnd : p.Nodup) : p ∈ simplePaths g s t := by
  have hs : s ∈ g.nodes := by
    obtain ⟨r, rfl⟩ := walk_head g s t p hw
    exact walk_mem_nodes g hwf s t _ hw s (by simp)
  have ht : t ∈ g.nodes :=
    walk_mem_nodes g hwf s t p hw t (walk_end_mem g s t p hw)
  unfold simplePaths
  rw [if_pos (by simp [hs, ht])]
  apply pathsAux_complete g hwf p s t hw [] g.nodes.length hnd (by simp)
  simp

/-- Correctness of the modelled shortest-path query on a connected pair:
it returns a simple walk of minimal length among all walks. -/
theorem shortest_path_spec (g : Graph) (hwf : g.wf) (s t : Nat) (w : List Nat)
    (hw : Walk g s t w) :
    ∃ p, shortest_path g s t = some p ∧ Walk g s t p ∧ p.Nodup ∧
      ∀ w', Walk g s t w' → p.length ≤ w'.length := by
  obtain ⟨p0, hp0, hnd0, _⟩ := walk_to_simple g s t w hw
  have hmem : p0 ∈ simplePaths g s t := simplePaths_complete g hwf s t p0 hp0 hnd0
  cases hargs : argminLen (simplePaths g s t) with
  | none =>
    rw [argminLen_eq_none] at hargs
    rw [hargs] at hmem
    simp at hmem
  | some p =>
    have hpm : p ∈ simplePaths g s t := argminLen_mem _ p hargs
    obtain ⟨hwp, hndp⟩ := simplePaths_sound g s t p hpm
    refine ⟨p, hargs, hwp, hndp, ?_⟩
    intro w' hw'
    obtain ⟨p1, hp1, hnd1, hle1⟩ := walk_to_simple g s t w' hw'
    have hm1 : p1 ∈ simplePaths g s t := simplePaths_complete g hwf s t p1 hp1 hnd1
    exact le_trans (argminLen_min _ p hargs p1 hm1) hle1

/-- The modelled shortest-path query returns none exactly on disconnected
pairs. -/
theorem shortest_path_none (g : Graph) (hwf : g.wf) (s t : Nat)
    (h : ∀ w, ¬ Walk g s t w) : shortest_path g s t = none := by
  unfold shortest_path
  cases hargs : argminLen (simplePaths g s t) with
  | none => rfl
  | some p =>
    exfalso
    have hpm : p ∈ simplePaths g s t := argminLen_mem _ p hargs
    exact h p (simplePaths_sound g s t p hpm).1

theorem buildGraph_wf (es : List (Nat × Nat)) : (buildGraph es).wf := by
  constructor
  · intro e he
    constructor
    · apply List.mem_dedup.2
      exact List.mem_flatMap.2 ⟨e, he, by simp⟩
    · apply List.mem_dedup.2
      exact List.mem_flatMap.2 ⟨e, he, by simp⟩
  · exact List.nodup_dedup _

theorem removeNodes_wf (g : Graph) (hwf : g.wf) (bad : List Nat) :
    (g.removeNodes bad).wf := by
  constructor
  · intro e he
    have hef := List.mem_filter.1 he
    have hm := hwf.1 e hef.1
    have hb := hef.2
    rw [Bool.and_eq_true] at hb
    exact ⟨List.mem_filter.2 ⟨hm.1, hb.1⟩, List.mem_filter.2 ⟨hm.2, hb.2⟩⟩
  · exact hwf.2.filter _

/-- C3: on every filtered graph view, the single shortest-path query
returns a path from source to target of minimal length among all walks
when the endpoints are connected, and the NoPath outcome (none) when they
are not; on the 4-node path graph 1-2-3-4 the result is exactly
[1, 2, 3, 4]. -/
theorem claim_C3 :
    (∀ (es : List (Nat × Nat)) (bad : List Nat) (s t : Nat),
      (∀ w, Walk ((buildGraph es).removeNodes bad) s t w →
        ∃ p, shortest_path ((buildGraph es).removeNodes bad) s t = some p ∧
          Walk ((buildGraph es).removeNodes bad) s t p ∧ p.Nodup ∧
          ∀ w', Walk ((buildGraph es).removeNodes bad) s t w' →
            p.length ≤ w'.length)
      ∧ ((∀ w, ¬ Walk ((buildGraph es).removeNodes bad) s t w) →
          shortest_path ((buildGraph es).removeNodes bad) s t = none))
    ∧ shortest_path (buildGraph [(1, 2), (2, 3), (3, 4)]) 1 4 = some [1, 2, 3, 4] := by
  constructor
  · intro es bad s t
    have hwf : ((buildGraph es).removeNodes bad).wf :=
      removeNodes_wf (buildGraph es) (buildGraph_wf es) bad
    exact ⟨fun w hw => shortest_path_spec _ hwf s t w hw,
      fun h => shortest_path_none _ hwf s t h⟩
  · decide

/-- C3 witness: on the path graph 1-2-3 with nothing excluded, the walk
[1, 2, 3] exists, so the query returns a minimal path. -/
theorem claim_C3_witness :
    ∃ p, shortest_path ((buildGraph [(1, 2), (2, 3)]).removeNodes []) 1 3 = some p ∧
      Walk ((buildGraph [(1, 2), (2, 3)]).removeNodes []) 1 3 p ∧ p.Nodup ∧
      ∀ w', Walk ((buildGraph [(1, 2), (2, 3)]).removeNodes []) 1 3 w' →
        p.length ≤ w'.length :=
  (claim_C3.1 [(1, 2), (2, 3)] [] 1 3).1 [1, 2, 3]
    (Walk.cons 1 2 3 [2, 3] (by decide)
      (Walk.cons 2 3 3 [3] (by decide) (Walk.nil 3 (by decide))))

/-! ### C4: k-shortest simple paths -/

theorem insertByLen_perm (p : List Nat) (L : List (List Nat)) :
    (insertByLen p L).Perm (p :: L) := by
  induction L with
  | nil => simp [insertByLen]
  | cons q rest ih =>
    unfold insertByLen
    split
    · exact (ih.cons q).trans (List.Perm.swap p q rest)
    · exact List.Perm.refl _

theorem sortByLen_perm (L : List (List Nat)) : (sortByLen L).Perm L := by
  induction L with
  | nil => simp [sortByLen]
  | cons p rest ih =>
    unfold sortByLen
    exact (insertByLen_perm _ _).trans (ih.cons p)

theorem insertByLen_sorted (p : List Nat) (L : List (List Nat))
    (h : L.Pairwise (fun a b => a.length ≤ b.length)) :
    (insertByLen p L).Pairwise (fun a b => a.length ≤ b.length) := by
  induction L with
  | nil => simp [insertByLen]
  | cons q rest ih =>
    unfold insertByLen
    obtain ⟨hq, hrest⟩ := List.pairwise_cons.1 h
    split
    · next hle =>
      apply List.pairwise_cons.2
      refine ⟨?_, ih hrest⟩
      intro b hb
      have hbmem : b ∈ p :: rest := (insertByLen_perm p rest).mem_iff.1 hb
      rcases List.mem_cons.1 hbmem with rfl | hm
      · exact hle
      · exact hq b hm
    · next hle =>
      apply List.pairwise_cons.2
      refine ⟨?_, h⟩
      intro b hb
      rcases List.mem_cons.1 hb with rfl | hm
      · omega
      · exact le_trans (by omega) (hq b hm)

theorem sortByLen_sorted (L : List (List Nat)) :
    (sortByLen L).Pairwise (fun a b => a.length ≤ b.length) := by
  induction L with
  | nil => simp [sortByLen]
  | cons p rest ih => exact insertByLen_sorted p _ ih

theorem nodup_flatMap_disjoint {α β : Type} [DecidableEq β] (L : List α)
    (F : α → List β) (hL : L.Nodup) (hF : ∀ v ∈ L, (F v).Nodup)
    (hdisj : ∀ v ∈ L, ∀ w ∈ L, v ≠ w → ∀ x ∈ F v, x ∉ F w) :
    (L.flatMap F).Nodup := by
  induction L with
  | nil => simp
  | cons a L ih =>
    rw [List.flatMap_cons]
    apply List.Nodup.append (hF a (by simp))
    · apply ih (List.nodup_cons.1 hL).2 (fun v hv => hF v (by simp [hv]))
      intro v hv w hw hne x hx
      exact hdisj v (by simp [hv]) w (by simp [hw]) hne x hx
    · intro x hxa hxm
      obtain ⟨w, hw, hxw⟩ := List.mem_flatMap.1 hxm
      have hne : a ≠ w := by
        intro he
        exact (List.nodup_cons.1 hL).1 (he ▸ hw)
      exact hdisj a (by simp) w (by simp [hw]) hne x hxa hxw

theorem pathsAux_nodup (g : Graph) (hnd : g.nodes.Nodup) :
    ∀ (fuel : Nat) (vis : List Nat) (u t : Nat), (pathsAux g fuel vis u t).Nodup := by
  intro fuel
  induction fuel with
  | zero => intro vis u t; simp [pathsAux]
  | succ f ih =>
    intro vis u t
    unfold pathsAux
    split
    · simp
    · apply nodup_flatMap_disjoint _ _ (hnd.filter _)
      · intro v _
        apply List.Nodup.map (fun a b hab => by simpa using hab)
        exact ih (u :: vis) v t
      · intro v _ w _ hvw x hxv hxw
        obtain ⟨q1, hq1, he1⟩ := List.mem_map.1 hxv
        obtain ⟨q2, hq2, he2⟩ := List.mem_map.1 hxw
        obtain ⟨r1, hr1⟩ := pathsAux_shape g f (u :: vis) v t q1 hq1
        obtain ⟨r2, hr2⟩ := pathsAux_shape g f (u :: vis) w t q2 hq2
        apply hvw
        have : u :: q1 = u :: q2 := he1.trans he2.symm
        have hq : q1 = q2 := by simpa using this
        rw [hr1, hr2] at hq
        exact (List.cons.injEq _ _ _ _ ▸ hq).1

theorem simplePaths_nodup (g : Graph) (hwf : g.wf) (s t : Nat) :
    (simplePaths g s t).Nodup := by
  unfold simplePaths
  split
  · exact pathsAux_nodup g hwf.2 _ [] s t
  · simp

/-- C4: on every filtered graph view, the k-shortest-simple-paths
enumeration yields only simple paths from source to target, in
non-decreasing length order, without repeating a path, yields at most k
paths, and when fewer than k simple paths exist it yields exactly the
existing ones (and nothing more) rather than an error. -/
theorem claim_C4 (es : List (Nat × Nat)) (bad : List Nat) (s t k : Nat) :
    (∀ p ∈ k_shortest_simple_paths ((buildGraph es).removeNodes bad) s t k,
        Walk ((buildGraph es).removeNodes bad) s t p ∧ p.Nodup)
    ∧ (k_shortest_simple_paths ((buildGraph es).removeNodes bad) s t k).Pairwise
        (fun a b => a.length ≤ b.length)
    ∧ (k_shortest_simple_paths ((buildGraph es).removeNodes bad) s t k).Nodup
    ∧ (k_shortest_simple_paths ((buildGraph es).removeNodes bad) s t k).length ≤ k
    ∧ ((simplePaths ((buildGraph es).removeNodes bad) s t).length < k →
        (k_shortest_simple_paths ((buildGraph es).removeNodes bad) s t k).Perm
          (simplePaths ((buildGraph es).removeNodes bad) s t)) := by
  have hwf : ((buildGraph es).removeNodes bad).wf :=
    removeNodes_wf (buildGraph es) (buildGraph_wf es) bad
  refine ⟨?_, ?_, ?_, ?_, ?_⟩
  · intro p hp
    have hm1 : p ∈ sortByLen (simplePaths ((buildGraph es).removeNodes bad) s t) :=
      (List.take_sublist _ _).subset hp
    have hm2 : p ∈ simplePaths ((buildGraph es).removeNodes bad) s t :=
      (sortByLen_perm _).mem_iff.1 hm1
    exact simplePaths_sound _ s t p hm2
  · exact List.Pairwise.sublist (List.take_sublist _ _) (sortByLen_sorted _)
  · exact List.Sublist.nodup (List.take_sublist _ _)
      ((sortByLen_perm _).nodup_iff.2 (simplePaths_nodup _ hwf s t))
  · exact List.length_take_le _ _
  · intro hlt
    unfold k_shortest_simple_paths
    rw [List.take_of_length_le]
    · exact sortByLen_perm _
    · rw [(sortByLen_perm _).length_eq]
      omega

/-- C4 witness: on the path graph 1-2-3 there is exactly one simple path
from 1 to 3, so asking for 5 paths yields exactly the existing ones. -/
theorem claim_C4_witness :
    (k_shortest_simple_paths ((buildGraph [(1, 2), (2, 3)]).removeNodes []) 1 3 5).Perm
      (simplePaths ((buildGraph [(1, 2), (2, 3)]).removeNodes []) 1 3) :=
  (claim_C4 [(1, 2), (2, 3)] [] 1 3 5).2.2.2.2 (by decide)

/-! ### C5: multi-target union -/

theorem mem_addNode (s : List Nat) (y x : Nat) :
    x ∈ addNode s y ↔ x ∈ s ∨ x = y := by
  unfold addNode
  split
  · next h =>
    constructor
    · exact fun hx => Or.inl hx
    · rintro (hx | rfl)
      · exact hx
      · simpa using h
  · simp

theorem mem_addNodes (xs : List Nat) (s : List Nat) (x : Nat) :
    x ∈ addNodes s xs ↔ x ∈ s ∨ x ∈ xs := by
  induction xs generalizing s with
  | nil => simp [addNodes]
  | cons y ys ih =>
    show x ∈ addNodes (addNode s y) ys ↔ _
    rw [ih, mem_addNode]
    simp [or_assoc]

theorem mem_addEdge (s : List (Nat × Nat)) (y x : Nat × Nat) :
    x ∈ addEdge s y ↔ x ∈ s ∨ x = y := by
  unfold addEdge
  split
  · next h =>
    constructor
    · exact fun hx => Or.inl hx
    · rintro (hx | rfl)
      · exact hx
      · simpa using h
  · simp

theorem mem_addEdges (xs : List (Nat × Nat)) (s : List (Nat × Nat)) (x : Nat × Nat) :
    x ∈ addEdges s xs ↔ x ∈ s ∨ x ∈ xs := by
  induction xs generalizing s with
  | nil => simp [addEdges]
  | cons y ys ih =>
    show x ∈ addEdges (addEdge s y) ys ↔ _
    rw [ih, mem_addEdge]
    simp [or_assoc]

theorem mtuStep_nodes (g : Graph) (acc : List Nat × List (Nat × Nat)) (pr : Nat × Nat)
    (n : Nat) :
    n ∈ (mtuStep g acc pr).1 ↔
      n ∈ acc.1 ∨ ∃ p, shortest_path g pr.1 pr.2 = some p ∧ n ∈ p := by
  unfold mtuStep
  cases hsp : shortest_path g pr.1 pr.2 with
  | none => simp
  | some p => simp [mem_addNodes]

theorem mtuStep_edges (g : Graph) (acc : List Nat × List (Nat × Nat)) (pr : Nat × Nat)
    (e : Nat × Nat) :
    e ∈ (mtuStep g acc pr).2 ↔
      e ∈ acc.2 ∨ ∃ p, shortest_path g pr.1 pr.2 = some p ∧ e ∈ pathEdges p := by
  unfold mtuStep
  cases hsp : shortest_path g pr.1 pr.2 with
  | none => simp
  | some p => simp [mem_addEdges]

theorem mtu_fold_nodes (g : Graph) (prs : List (Nat × Nat))
    (acc : List Nat × List (Nat × Nat)) (n : Nat) :
    n ∈ (prs.foldl (mtuStep g) acc).1 ↔
      n ∈ acc.1 ∨ ∃ pr ∈ prs, ∃ p, shortest_path g pr.1 pr.2 = some p ∧ n ∈ p := by
  induction prs generalizing acc with
  | nil => simp
  | cons pr prs ih =>
    rw [List.foldl_cons, ih, mtuStep_nodes]
    constructor
    · rintro ((ha | ⟨p, hp, hn⟩) | ⟨pr2, hpr2, hq⟩)
      · exact Or.inl ha
      · exact Or.inr ⟨pr, by simp, p, hp, hn⟩
      · exact Or.inr ⟨pr2, List.mem_cons_of_mem pr hpr2, hq⟩
    · rintro (ha | ⟨pr2, hpr2, hq⟩)
      · exact Or.inl (Or.inl ha)
      · rcases List.mem_cons.1 hpr2 with rfl | hm
        · exact Or.inl (Or.inr hq)
        · exact Or.inr ⟨pr2, hm, hq⟩

theorem mtu_fold_edges (g : Graph) (prs : List (Nat × Nat))
    (acc : List Nat × List (Nat × Nat)) (e : Nat × Nat) :
    e ∈ (prs.foldl (mtuStep g) acc).2 ↔
      e ∈ acc.2 ∨ ∃ pr ∈ prs, ∃ p, shortest_path g pr.1 pr.2 = some p ∧
        e ∈ pathEdges p := by
  induction prs generalizing acc with
  | nil => simp
  | cons pr prs ih =>
    rw [List.foldl_cons, ih, mtuStep_edges]
    constructor
    · rintro ((ha | ⟨p, hp, hn⟩) | ⟨pr2, hpr2, hq⟩)
      · exact Or.inl ha
      · exact Or.inr ⟨pr, by simp, p, hp, hn⟩
      · exact Or.inr ⟨pr2, List.mem_cons_of_mem pr hpr2, hq⟩
    · rintro (ha | ⟨pr2, hpr2, hq⟩)
      · exact Or.inl (Or.inl ha)
      · rcases List.mem_cons.1 hpr2 with rfl | hm
        · exact Or.inl (Or.inr hq)
        · exact Or.inr ⟨pr2, hm, hq⟩

theorem mtu_eq_fold (g : Graph) (s : Nat) (ts : List Nat) :
    multi_target_union g s ts =
      ((ts.map (fun t => (s, t))) ++ pairsOf ts).foldl (mtuStep g) ([], []) := by
  unfold multi_target_union
  split
  · rw [List.foldl_append]
  · next h =>
    have hnil : pairsOf ts = [] := by
      match ts with
      | [] => rfl
      | [t] => rfl
      | a :: b :: r =>
        exfalso
        apply h
        simp
    rw [hnil, List.append_nil]

/-- C5: counterexample.  When the source itself is entered as a target
(the interactive layer does not forbid it), the target node is tagged
source, not target: with graph 1-2, source 1 and target list [1], node 1
is in the returned node set but its tag is source.  The claim "each
target node is tagged target" therefore fails as stated. -/
theorem claim_C5_counterexample :
    1 ∈ (multi_target_union (buildGraph [(1, 2)]) 1 [1]).1
      ∧ (1 : Nat) ∈ ([1] : List Nat)
      ∧ tagOf 1 [1] 1 ≠ NodeTag.target := by
  decide

/-- C5 (amended): on every filtered graph view whose nodes include the
source and all targets, the returned node set is exactly the union of the
nodes of the shortest source-to-target and target-to-target paths that
exist (pairs without a path are skipped), the edge set is exactly the
union of their traversed edges, and the tags satisfy: the source is
tagged source, each target other than the source is tagged target, and
every other node is tagged intermediate. -/
theorem claim_C5 (es : List (Nat × Nat)) (bad : List Nat) (s : Nat) (ts : List Nat)
    (hs : s ∈ ((buildGraph es).removeNodes bad).nodes)
    (hts : ∀ x ∈ ts, x ∈ ((buildGraph es).removeNodes bad).nodes) :
    (∀ n, n ∈ (multi_target_union ((buildGraph es).removeNodes bad) s ts).1 ↔
        ∃ pr ∈ (ts.map (fun t => (s, t))) ++ pairsOf ts, ∃ p,
          shortest_path ((buildGraph es).removeNodes bad) pr.1 pr.2 = some p ∧ n ∈ p)
    ∧ (∀ e, e ∈ (multi_target_union ((buildGraph es).removeNodes bad) s ts).2 ↔
        ∃ pr ∈ (ts.map (fun t => (s, t))) ++ pairsOf ts, ∃ p,
          shortest_path ((buildGraph es).removeNodes bad) pr.1 pr.2 = some p ∧
            e ∈ pathEdges p)
    ∧ (∀ n, (tagOf s ts n = NodeTag.source ↔ n = s)
        ∧ (tagOf s ts n = NodeTag.target ↔ (n ≠ s ∧ n ∈ ts))
        ∧ (tagOf s ts n = NodeTag.intermediate ↔ (n ≠ s ∧ n ∉ ts))) := by
  refine ⟨?_, ?_, ?_⟩
  · intro n
    rw [mtu_eq_fold, mtu_fold_nodes]
    simp
  · intro e
    rw [mtu_eq_fold, mtu_fold_edges]
    simp
  · intro n
    unfold tagOf
    by_cases h1 : n = s
    · simp [h1]
    · rw [if_neg h1]
      by_cases h2 : ts.contains n = true
      · have hm : n ∈ ts := by simpa using h2
        simp [h2, h1, hm]
      · have hm : n ∉ ts := by simpa using h2
        simp [h2, h1, hm]

/-- C5 witness: graph 1-2, source 1, target 2: the tag characterization
instantiated at node 2. -/
theorem claim_C5_witness :
    (tagOf 1 [2] 2 = NodeTag.source ↔ (2 : Nat) = 1)
      ∧ (tagOf 1 [2] 2 = NodeTag.target ↔ ((2 : Nat) ≠ 1 ∧ (2 : Nat) ∈ ([2] : List Nat)))
      ∧ (tagOf 1 [2] 2 = NodeTag.intermediate ↔
          ((2 : Nat) ≠ 1 ∧ (2 : Nat) ∉ ([2] : List Nat))) :=
  (claim_C5 [(1, 2)] [] 1 [2] (by decide) (by decide)).2.2 2

/-! ### C6: exclusion filtering -/

theorem filteredView_wf (db : DB) (bl : List Str) : (filteredView db bl).wf :=
  removeNodes_wf _ (buildGraph_wf _) _

theorem excluded_not_in_view (db : DB) (bl : List Str) (i : Nat)
    (hi : i ∈ blacklistIds db bl) :
    i ∉ (filteredView db bl).nodes ∧
      ∀ e ∈ (filteredView db bl).edges, e.1 ≠ i ∧ e.2 ≠ i := by
  constructor
  · intro hc
    have := (List.mem_filter.1 hc).2
    simp at this
    exact this hi
  · intro e he
    have h2 := (List.mem_filter.1 he).2
    rw [Bool.and_eq_true] at h2
    constructor
    · intro hc
      have := h2.1
      simp at this
      exact this (hc ▸ hi)
    · intro hc
      have := h2.2
      simp at this
      exact this (hc ▸ hi)

theorem dictGet_mem (db : DB) (u : Str) (i : Nat) (h : dictGet db u = some i) :
    ∃ p ∈ db.profiles, p.id = i ∧ p.url = u := by
  unfold dictGet at h
  have main : ∀ (l : List Profile) (acc : Option Nat),
      l.foldl (fun acc p => if p.url == u then some p.id else acc) acc = some i →
      (∃ p ∈ l, p.id = i ∧ p.url = u) ∨ acc = some i := by
    intro l
    induction l with
    | nil => intro acc h; exact Or.inr h
    | cons p l ih =>
      intro acc h
      rw [List.foldl_cons] at h
      rcases ih _ h with h1 | h1
      · obtain ⟨q, hq, he⟩ := h1
        exact Or.inl ⟨q, by simp [hq], he⟩
      · by_cases hc : (p.url == u) = true
        · rw [if_pos hc] at h1
          exact Or.inl ⟨p, by simp, by simpa using h1, by simpa using hc⟩
        · rw [if_neg hc] at h1
          exact Or.inr h1
  rcases main db.profiles none h with h1 | h1
  · exact h1
  · simp at h1

theorem mem_blacklistIds (db : DB) (bl : List Str) (u : Str) (i : Nat)
    (hu : u ∈ bl) (hd : dictGet db u = some i) (hnz : i ≠ 0) :
    i ∈ blacklistIds db bl := by
  unfold blacklistIds
  apply List.mem_filterMap.2
  refine ⟨u, hu, ?_⟩
  rw [hd]
  show (if i ≠ 0 then some i else none) = some i
  rw [if_pos hnz]

theorem runQuery_path_sub (db : DB) (bl : List Str) (sRaw eRaw : Str) (p : List Nat)
    (h : run_shortest_path_query db bl sRaw eRaw = QueryOutcome.path p) :
    ∀ x ∈ p, x ∈ (filteredView db bl).nodes := by
  unfold run_shortest_path_query at h
  cases h1 : (normalize_url sRaw).bind (dictGet db) with
  | none => rw [h1] at h; simp at h
  | some s =>
    cases h2 : (normalize_url eRaw).bind (dictGet db) with
    | none => rw [h1, h2] at h; simp at h
    | some e =>
      rw [h1, h2] at h
      dsimp only at h
      split at h
      · simp at h
      · split at h
        · cases h3 : shortest_path (filteredView db bl) s e with
          | none => rw [h3] at h; simp at h
          | some q =>
            rw [h3] at h
            simp at h
            subst h
            have hq : q ∈ simplePaths (filteredView db bl) s e :=
              argminLen_mem _ q h3
            have hw := (simplePaths_sound _ s e q hq).1
            exact fun x hx => walk_mem_nodes _ (filteredView_wf db bl) s e q hw x hx
        · simp at h

/-- C6: an excluded key's node is removed from the filtered view together
with all its incident edges and appears in no returned path; a query
whose start or target endpoint resolves to an excluded profile is
answered with the distinct endpointExcluded outcome, not noPath.
(Profile ids are nonzero in any database built by the schema; the
hypothesis reflects that, since the tool's Python truthiness test would
drop an id-0 profile from the blacklist.) -/
theorem claim_C6 (db : DB) (bl : List Str) (sRaw eRaw : Str)
    (hid : ∀ p ∈ db.profiles, p.id ≠ 0) :
    (∀ u ∈ bl, ∀ i, dictGet db u = some i →
        (i ∉ (filteredView db bl).nodes ∧
          ∀ e ∈ (filteredView db bl).edges, e.1 ≠ i ∧ e.2 ≠ i) ∧
        ∀ p, run_shortest_path_query db bl sRaw eRaw = QueryOutcome.path p → i ∉ p)
    ∧ (∀ s e, (normalize_url sRaw).bind (dictGet db) = some s →
        (normalize_url eRaw).bind (dictGet db) = some e →
        ((∃ u ∈ bl, dictGet db u = some s) ∨ (∃ u ∈ bl, dictGet db u = some e)) →
        run_shortest_path_query db bl sRaw eRaw = QueryOutcome.endpointExcluded) := by
  constructor
  · intro u hu i hd
    obtain ⟨q, hq, hqi, _⟩ := dictGet_mem db u i hd
    have hnz : i ≠ 0 := hqi ▸ hid q hq
    have hbl : i ∈ blacklistIds db bl := mem_blacklistIds db bl u i hu hd hnz
    refine ⟨excluded_not_in_view db bl i hbl, ?_⟩
    intro p hp hip
    have := runQuery_path_sub db bl sRaw eRaw p hp i hip
    exact (excluded_not_in_view db bl i hbl).1 this
  · intro s e h1 h2 hex
    have hsbl : (blacklistIds db bl).contains s = true ∨
        (blacklistIds db bl).contains e = true := by
      rcases hex with ⟨u, hu, hd⟩ | ⟨u, hu, hd⟩
      · obtain ⟨q, hq, hqi, _⟩ := dictGet_mem db u s hd
        left
        simpa using mem_blacklistIds db bl u s hu hd (hqi ▸ hid q hq)
      · obtain ⟨q, hq, hqi, _⟩ := dictGet_mem db u e hd
        right
        simpa using mem_blacklistIds db bl u e hu hd (hqi ▸ hid q hq)
    unfold run_shortest_path_query
    rw [h1, h2]
    dsimp only
    rw [if_pos ?_]
    rw [Bool.or_eq_true]
    exact hsbl

/-- C6 witness: a two-profile database with the second profile
blacklisted; querying from the first to the second yields
endpointExcluded. -/
theorem claim_C6_witness :
    run_shortest_path_query
        ⟨[⟨1, "https://a".toList, "A".toList⟩, ⟨2, "https://b".toList, "B".toList⟩],
          [(1, 2)]⟩
        ["https://b".toList] ("https://a".toList) ("https://b".toList) =
      QueryOutcome.endpointExcluded :=
  (claim_C6
      ⟨[⟨1, "https://a".toList, "A".toList⟩, ⟨2, "https://b".toList, "B".toList⟩],
        [(1, 2)]⟩
      ["https://b".toList] ("https://a".toList) ("https://b".toList)
      (by decide)).2 1 2 (by decide) (by decide)
    (Or.inr ⟨"https://b".toList, by decide, by decide⟩)

/-! ### removeWWW, rstripSlash and splitAmp lemmas -/

theorem removeWWW_subset (s : Str) (c : Char) (h : c ∈ removeWWW s) : c ∈ s := by
  induction s using removeWWW.induct with
  | case1 rest ih =>
    rw [removeWWW] at h
    simp [ih h]
  | case2 c0 rest h0 ih =>
    rw [removeWWW] at h
    · rcases List.mem_cons.1 h with rfl | hm
      · simp
      · simp [ih hm]
    · exact h0
  | case3 => simpa [removeWWW] using h

theorem removeWWW_mem_iff (s : Str) (c : Char) (h1 : c ≠ 'w') (h2 : c ≠ '.') :
    c ∈ removeWWW s ↔ c ∈ s := by
  induction s using removeWWW.induct with
  | case1 rest ih =>
    rw [removeWWW]
    rw [ih]
    constructor
    · intro hm
      simp [hm]
    · intro hm
      rcases List.mem_cons.1 hm with rfl | hm2
      · exact absurd rfl h1
      · rcases List.mem_cons.1 hm2 with rfl | hm3
        · exact absurd rfl h1
        · rcases List.mem_cons.1 hm3 with rfl | hm4
          · exact absurd rfl h1
          · rcases List.mem_cons.1 hm4 with rfl | hm5
            · exact absurd rfl h2
            · exact hm5
  | case2 c0 rest h0 ih =>
    rw [removeWWW]
    · simp [ih]
    · exact h0
  | case3 => simp [removeWWW]

theorem removeWWW_eq_self (s : Str) (h : containsSub ("www.".toList) s = false) :
    removeWWW s = s := by
  induction s using removeWWW.induct with
  | case1 rest ih =>
    exfalso
    rw [containsSub] at h
    simp at h
  | case2 c0 rest h0 ih =>
    rw [removeWWW]
    · rw [containsSub] at h
      simp at h
      rw [ih h.2]
    · exact h0
  | case3 => rfl

theorem removeWWW_prepend (s : Str) : removeWWW ("www.".toList ++ s) = removeWWW s := rfl

theorem dropWhile_idem (p : Char → Bool) (l : Str) :
    (l.dropWhile p).dropWhile p = l.dropWhile p := by
  induction l with
  | nil => rfl
  | cons c l ih =>
    rw [List.dropWhile_cons]
    split
    · exact ih
    · next h =>
      rw [List.dropWhile_cons, if_neg h]

theorem rstripSlash_idem (s : Str) : rstripSlash (rstripSlash s) = rstripSlash s := by
  unfold rstripSlash
  rw [List.reverse_reverse, dropWhile_idem]

theorem rstripSlash_subset (s : Str) (c : Char) (h : c ∈ rstripSlash s) : c ∈ s := by
  unfold rstripSlash at h
  rw [List.mem_reverse] at h
  have := (List.dropWhile_suffix _).subset h
  rwa [List.mem_reverse] at this

theorem rstripSlash_prefix (s : Str) : List.IsPrefix (rstripSlash s) s := by
  unfold rstripSlash
  rw [← List.reverse_reverse s]
  rw [List.reverse_prefix]
  rw [List.reverse_reverse]
  exact List.dropWhile_suffix _

theorem rstripSlash_cons_stable (c : Char) (s : Str) (h : rstripSlash s = s)
    (hs : s ≠ []) : rstripSlash (c :: s) = c :: s := by
  unfold rstripSlash at h ⊢
  rw [List.reverse_cons]
  cases hr : s.reverse with
  | nil => exact absurd (by simpa using hr) hs
  | cons a t =>
    have hna : (a == '/') = false := by
      by_contra hc
      simp only [Bool.not_eq_false] at hc
      rw [hr, List.dropWhile_cons, hc] at h
      simp only [if_true] at h
      have hsfx : List.IsSuffix (t.dropWhile (fun x => x == '/')) t :=
        List.dropWhile_suffix _
      have hle := hsfx.length_le
      have hlen := congrArg List.length h
      rw [List.length_reverse] at hlen
      have hsl : s.length = t.length + 1 := by
        have h2 := congrArg List.length hr
        simpa using h2
      omega
    have hgoal : List.dropWhile (fun x => x == '/') ((a :: t) ++ [c]) =
        (a :: t) ++ [c] := by
      rw [List.cons_append]
      rw [List.dropWhile_cons, hna]
      simp
    rw [hgoal]
    have hrr : (a :: t).reverse = s := by
      rw [← hr, List.reverse_reverse]
    rw [List.reverse_append]
    simp [hrr]

theorem splitAmp_ne_nil (s : Str) : splitAmp s ≠ [] := by
  induction s using splitAmp.induct with
  | case1 => simp [splitAmp]
  | case2 rest ih => simp [splitAmp]
  | case3 c rest h0 h t ht ih =>
    rw [splitAmp]
    · rw [ht]
      simp
    · exact h0
  | case4 c rest h0 h ih =>
    exact absurd h (ih)

theorem splitAmp_no_amp (s : Str) : ∀ q ∈ splitAmp s, '&' ∉ q := by
  induction s using splitAmp.induct with
  | case1 => simp [splitAmp]
  | case2 rest ih =>
    rw [splitAmp]
    intro q hq
    rcases List.mem_cons.1 hq with rfl | hm
    · simp
    · exact ih q hm
  | case3 c rest h0 h t ht ih =>
    rw [splitAmp]
    · rw [ht]
      intro q hq
      rcases List.mem_cons.1 hq with rfl | hm
      · intro hc
        rcases List.mem_cons.1 hc with hc1 | hc1
        · exact h0 hc1.symm
        · exact ih h (by rw [ht]; simp) hc1
      · exact ih q (by rw [ht]; simp [hm])
    · exact h0
  | case4 c rest h0 h ih =>
    exact absurd h (splitAmp_ne_nil rest)

theorem splitAmp_single (q : Str) (h : '&' ∉ q) : splitAmp q = [q] := by
  induction q with
  | nil => rfl
  | cons c rest ih =>
    have hc : c ≠ '&' := fun he => h (by simp [he])
    have hrest : '&' ∉ rest := fun hm => h (by simp [hm])
    rw [splitAmp]
    · rw [ih hrest]
    · intro he
      exact absurd he hc

theorem splitAmp_append_amp (q x : Str) (h : '&' ∉ q) :
    splitAmp (q ++ '&' :: x) = q :: splitAmp x := by
  induction q with
  | nil => rfl
  | cons c rest ih =>
    have hc : c ≠ '&' := fun he => h (by simp [he])
    have hrest : '&' ∉ rest := fun hm => h (by simp [hm])
    rw [List.cons_append, splitAmp]
    · rw [ih hrest]
    · intro he
      exact absurd he hc

theorem splitAmp_joinAmp (l : List Str) (hne : l ≠ []) (h : ∀ q ∈ l, '&' ∉ q) :
    splitAmp (joinAmp l) = l := by
  induction l with
  | nil => exact absurd rfl hne
  | cons q rest ih =>
    cases rest with
    | nil =>
      show splitAmp (joinAmp [q]) = [q]
      rw [joinAmp]
      exact splitAmp_single q (h q (by simp))
    | cons q2 rest2 =>
      rw [joinAmp]
      · rw [splitAmp_append_amp _ _ (h q (by simp))]
        rw [ih (by simp) (fun q3 hq3 => h q3 (by simp [hq3]))]
      · simp

/-! ### Facts about the components a successful parse returns -/

theorem lastSegment_subset (p : Str) (c : Char) (h : c ∈ lastSegment p) : c ∈ p := by
  unfold lastSegment at h
  rw [List.mem_reverse] at h
  have := (List.takeWhile_sublist _).subset h
  rwa [List.mem_reverse] at this

theorem splitParams_subset (sch p : Str) (c : Char) (h : c ∈ splitParams sch p) :
    c ∈ p := by
  unfold splitParams at h
  split at h
  · split at h
    · split at h
      · rcases List.mem_append.1 h with h1 | h1
        · exact List.take_subset _ _ h1
        · exact lastSegment_subset p c ((List.takeWhile_sublist _).subset h1)
      · exact h
    · exact (List.takeWhile_sublist _).subset h
  · exact h

theorem splitScheme_snd_subset (s : Str) (c : Char) (h : c ∈ (splitScheme s).2) :
    c ∈ s := by
  unfold splitScheme at h
  split at h
  · exact (List.drop_subset _ _) h
  · exact h

theorem sanitizeUrl_subset (s : Str) (c : Char) (h : c ∈ sanitizeUrl s) : c ∈ s := by
  unfold sanitizeUrl at h
  have h1 := List.mem_of_mem_filter h
  exact (List.dropWhile_suffix _).subset h1

theorem sanitizeUrl_clean (s : Str) (c : Char) (h : c ∈ sanitizeUrl s) :
    c ≠ '\t' ∧ c ≠ '\r' ∧ c ≠ '\n' := by
  unfold sanitizeUrl at h
  have h1 := List.of_mem_filter h
  rw [Bool.and_eq_true, Bool.and_eq_true] at h1
  refine ⟨?_, ?_, ?_⟩
  · simpa using h1.1.1
  · simpa using h1.1.2
  · simpa using h1.2

theorem dropWhile_head_false (p : Char → Bool) (l : Str) (c : Char) (t : Str)
    (h : l.dropWhile p = c :: t) : p c = false := by
  induction l with
  | nil => simp at h
  | cons a l ih =>
    rw [List.dropWhile_cons] at h
    split at h
    · exact ih h
    · next hp =>
      injection h with h1 h2
      subst h1
      simp only [Bool.not_eq_true] at hp
      exact hp

theorem pyUrlparse_dest (s : Str) (P : Parsed) (h : pyUrlparse s = some P) :
    ∃ nl r2, splitNetloc (splitScheme (sanitizeUrl s)).2 = some (nl, r2) ∧
      P = ⟨(splitScheme (sanitizeUrl s)).1, nl,
        splitParams (splitScheme (sanitizeUrl s)).1 ((splitQmark (splitHash r2).1).1),
        (splitQmark (splitHash r2).1).2⟩ := by
  unfold pyUrlparse at h
  simp only [] at h
  cases hn : splitNetloc (splitScheme (sanitizeUrl s)).2 with
  | none => rw [hn] at h; simp at h
  | some pr =>
    rw [hn] at h
    refine ⟨pr.1, pr.2, rfl, ?_⟩
    cases pr with
    | mk nl r2 =>
      simp only [] at h
      exact (Option.some.injEq _ _ ▸ h).symm

theorem dropWhile_of_takeWhile_nil (p : Char → Bool) (l : Str)
    (h : l.takeWhile p = []) : l.dropWhile p = l := by
  cases l with
  | nil => rfl
  | cons c t =>
    by_cases hp : p c = true
    · rw [List.takeWhile_cons, if_pos hp] at h
      simp at h
    · rw [List.dropWhile_cons, if_neg hp]

theorem splitNetloc_facts (s nl r2 : Str) (h : splitNetloc s = some (nl, r2)) :
    (∀ c ∈ nl, notDelim c = true) ∧ nl.contains '[' = false ∧ nl.contains ']' = false ∧
      (∀ c ∈ nl, c ∈ s) ∧ (∀ c ∈ r2, c ∈ s) := by
  unfold splitNetloc at h
  by_cases h2 : s.take 2 = ['/', '/']
  · rw [if_pos h2] at h
    by_cases hb : (((s.drop 2).takeWhile notDelim).contains '[' ||
        ((s.drop 2).takeWhile notDelim).contains ']') = true
    · rw [if_pos hb] at h
      simp at h
    · rw [if_neg hb] at h
      rw [Option.some.injEq, Prod.mk.injEq] at h
      obtain ⟨rfl, rfl⟩ := h
      rw [Bool.or_eq_true] at hb
      push_neg at hb
      refine ⟨fun c hc => List.mem_takeWhile_imp hc,
        Bool.eq_false_iff.mpr hb.1, Bool.eq_false_iff.mpr hb.2,
        fun c hc => List.drop_subset 2 s ((List.takeWhile_sublist _).subset hc),
        fun c hc => List.drop_subset 2 s ((List.dropWhile_sublist _).subset hc)⟩
  · rw [if_neg h2] at h
    rw [Option.some.injEq, Prod.mk.injEq] at h
    obtain ⟨rfl, rfl⟩ := h
    exact ⟨fun c hc => absurd hc (List.not_mem_nil c),
      rfl, rfl, fun c hc => absurd hc (List.not_mem_nil c), fun c hc => hc⟩

theorem pyUrlparse_facts (s : Str) (P : Parsed) (h : pyUrlparse s = some P) :
    (∀ c ∈ P.netloc, notDelim c = true) ∧
    P.netloc.contains '[' = false ∧ P.netloc.contains ']' = false ∧
    (∀ c ∈ P.path, c ≠ '?' ∧ c ≠ '#') ∧
    (∀ c ∈ P.query, c ≠ '#') ∧
    (∀ c ∈ P.netloc, c ∈ sanitizeUrl s) ∧
    (∀ c ∈ P.path, c ∈ sanitizeUrl s) ∧
    (∀ c ∈ P.query, c ∈ sanitizeUrl s) := by
  obtain ⟨nl, r2, hn, rfl⟩ := pyUrlparse_dest s P h
  obtain ⟨f1, f2, f3, f4, f5⟩ := splitNetloc_facts _ nl r2 hn
  have hr2 : ∀ c ∈ r2, c ∈ sanitizeUrl s :=
    fun c hc => splitScheme_snd_subset _ c (f5 c hc)
  have hpath : ∀ c ∈ splitParams (splitScheme (sanitizeUrl s)).1
      ((splitQmark (splitHash r2).1).1), (c ≠ '?' ∧ c ≠ '#') ∧ c ∈ r2 := by
    intro c hc
    have h1 := splitParams_subset _ _ c hc
    simp only [splitQmark, splitHash] at h1
    have h2 := List.mem_takeWhile_imp h1
    have h3 : c ∈ r2.takeWhile (fun c => c != '#') := (List.takeWhile_sublist _).subset h1
    have h4 := List.mem_takeWhile_imp h3
    have h5 : c ∈ r2 := (List.takeWhile_sublist _).subset h3
    exact ⟨⟨by simpa using h2, by simpa using h4⟩, h5⟩
  have hquery : ∀ c ∈ (splitQmark (splitHash r2).1).2, c ≠ '#' ∧ c ∈ r2 := by
    intro c hc
    simp only [splitQmark, splitHash] at hc
    have h1 := (List.drop_subset 1 _) hc
    have h2 : c ∈ (r2.takeWhile (fun c => c != '#')) :=
      (List.dropWhile_sublist _).subset h1
    have h3 := List.mem_takeWhile_imp h2
    exact ⟨by simpa using h3, (List.takeWhile_sublist _).subset h2⟩
  refine ⟨f1, f2, f3, fun c hc => (hpath c hc).1, fun c hc => (hquery c hc).1,
    fun c hc => splitScheme_snd_subset _ c (f4 c hc),
    fun c hc => hr2 c (hpath c hc).2,
    fun c hc => hr2 c (hquery c hc).2⟩

/-! ### Parsing the string pyUnparse builds -/

theorem takeWhile_eq_self_of_all (p : Char → Bool) (l : Str) (h : ∀ c ∈ l, p c = true) :
    l.takeWhile p = l := by
  induction l with
  | nil => rfl
  | cons c t ih =>
    rw [List.takeWhile_cons, if_pos (h c (List.mem_cons_self c t))]
    rw [ih (fun x hx => h x (List.mem_cons_of_mem c hx))]

theorem dropWhile_eq_nil_of_all (p : Char → Bool) (l : Str) (h : ∀ c ∈ l, p c = true) :
    l.dropWhile p = [] := by
  induction l with
  | nil => rfl
  | cons c t ih =>
    rw [List.dropWhile_cons, if_pos (h c (List.mem_cons_self c t))]
    exact ih (fun x hx => h x (List.mem_cons_of_mem c hx))

theorem sanitizeUrl_https (rest : Str)
    (h : ∀ c ∈ rest, c ≠ '\t' ∧ c ≠ '\r' ∧ c ≠ '\n') :
    sanitizeUrl ("https:".toList ++ rest) = "https:".toList ++ rest := by
  unfold sanitizeUrl
  rw [show ("https:".toList ++ rest) = 'h' :: ("ttps:".toList ++ rest) from rfl]
  rw [List.dropWhile_cons, if_neg (by decide)]
  rw [show ('h' :: ("ttps:".toList ++ rest)) = "https:".toList ++ rest from rfl]
  rw [List.filter_eq_self]
  intro c hc
  rcases List.mem_append.1 hc with h1 | h1
  · have hall : ∀ c ∈ "https:".toList, (c != '\t' && c != '\r' && c != '\n') = true := by
      decide
    exact hall c h1
  · obtain ⟨e1, e2, e3⟩ := h c h1
    simp [e1, e2, e3]

theorem splitNetloc_build (nl rest2 : Str)
    (h1 : ∀ c ∈ nl, notDelim c = true)
    (h2 : rest2.takeWhile notDelim = [])
    (hb1 : nl.contains '[' = false) (hb2 : nl.contains ']' = false) :
    splitNetloc ('/' :: '/' :: (nl ++ rest2)) = some (nl, rest2) := by
  unfold splitNetloc
  rw [if_pos (show ('/' :: '/' :: (nl ++ rest2)).take 2 = ['/', '/'] from rfl)]
  rw [show ('/' :: '/' :: (nl ++ rest2)).drop 2 = nl ++ rest2 from rfl]
  rw [takeWhile_append_of_all h1, h2, List.append_nil,
      dropWhile_append_of_all h1, dropWhile_of_takeWhile_nil _ _ h2]
  rw [if_neg (by rw [hb1, hb2]; decide)]

theorem splitHash_nohash (s : Str) (h : ∀ c ∈ s, c ≠ '#') :
    splitHash s = (s, []) := by
  unfold splitHash
  rw [takeWhile_eq_self_of_all _ _ (fun c hc => by simp [h c hc]),
      dropWhile_eq_nil_of_all _ _ (fun c hc => by simp [h c hc])]
  rfl

theorem splitQmark_noq (s : Str) (h : ∀ c ∈ s, c ≠ '?') :
    splitQmark s = (s, []) := by
  unfold splitQmark
  rw [takeWhile_eq_self_of_all _ _ (fun c hc => by simp [h c hc]),
      dropWhile_eq_nil_of_all _ _ (fun c hc => by simp [h c hc])]
  rfl

theorem splitQmark_build (u q : Str) (h : ∀ c ∈ u, c ≠ '?') :
    splitQmark (u ++ '?' :: q) = (u, q) := by
  unfold splitQmark
  have hall : ∀ c ∈ u, ((fun c => c != '?') c) = true := fun c hc => by simp [h c hc]
  rw [takeWhile_append_of_all hall, dropWhile_append_of_all hall]
  rw [List.takeWhile_cons, if_neg (by decide), List.append_nil]
  rw [List.dropWhile_cons, if_neg (by decide)]
  rfl

theorem mem_ensureSlash (pa : Str) (c : Char) (h : c ∈ ensureSlash pa) :
    c = '/' ∨ c ∈ pa := by
  unfold ensureSlash at h
  split at h
  · rcases List.mem_cons.1 h with rfl | hm
    · exact Or.inl rfl
    · exact Or.inr hm
  · exact Or.inr h

theorem ensureSlash_shape (pa : Str) :
    ensureSlash pa = [] ∨ ∃ t, ensureSlash pa = '/' :: t := by
  unfold ensureSlash
  split
  · exact Or.inr ⟨pa, rfl⟩
  · next hcond =>
    cases pa with
    | nil => exact Or.inl rfl
    | cons a t =>
      right
      refine ⟨t, ?_⟩
      have ha : a = '/' := by
        by_contra hne
        apply hcond
        simp [hne]
      rw [ha]

theorem pyUrlparse_unparse (nl pa q : Str)
    (hnl : ∀ c ∈ nl, notDelim c = true)
    (hb1 : nl.contains '[' = false) (hb2 : nl.contains ']' = false)
    (hpa : ∀ c ∈ pa, c ≠ '?' ∧ c ≠ '#')
    (hq : ∀ c ∈ q, c ≠ '#')
    (hcl : ∀ c ∈ (nl ++ pa) ++ q, c ≠ '\t' ∧ c ≠ '\r' ∧ c ≠ '\n')
    (hfix : ¬(nl = [] ∧ pa.take 2 = ['/', '/'])) :
    pyUrlparse (pyUnparse nl pa q) =
      some ⟨"https".toList, nl, splitParams ("https".toList) (ensureSlash pa), q⟩ := by
  have hu_mem : ∀ c ∈ ensureSlash pa, c = '/' ∨ c ∈ pa := mem_ensureSlash pa
  have hcl_nl : ∀ c ∈ nl, c ≠ '\t' ∧ c ≠ '\r' ∧ c ≠ '\n' :=
    fun c hc => hcl c (by simp [hc])
  have hcl_pa : ∀ c ∈ pa, c ≠ '\t' ∧ c ≠ '\r' ∧ c ≠ '\n' :=
    fun c hc => hcl c (by simp [hc])
  have hcl_q : ∀ c ∈ q, c ≠ '\t' ∧ c ≠ '\r' ∧ c ≠ '\n' :=
    fun c hc => hcl c (by simp [hc])
  have hu_q : ∀ c ∈ ensureSlash pa, c ≠ '?' := by
    intro c hc
    rcases hu_mem c hc with rfl | hm
    · decide
    · exact (hpa c hm).1
  have hu_h : ∀ c ∈ ensureSlash pa, c ≠ '#' := by
    intro c hc
    rcases hu_mem c hc with rfl | hm
    · decide
    · exact (hpa c hm).2
  have hu_cl : ∀ c ∈ ensureSlash pa, c ≠ '\t' ∧ c ≠ '\r' ∧ c ≠ '\n' := by
    intro c hc
    rcases hu_mem c hc with rfl | hm
    · refine ⟨by decide, by decide, by decide⟩
    · exact hcl_pa c hm
  have hcond : (!nl.isEmpty || decide (pa.take 2 ≠ ['/', '/'])) = true := by
    cases nl with
    | nil =>
      simp only [List.isEmpty_nil, Bool.not_true, Bool.false_or, decide_eq_true_eq]
      exact fun hh => hfix ⟨rfl, hh⟩
    | cons a t => rfl
  cases q with
  | nil =>
    have hu_tw1 : (ensureSlash pa).takeWhile notDelim = [] := by
      rcases ensureSlash_shape pa with he | ⟨t, he⟩
      · rw [he]; rfl
      · rw [he, List.takeWhile_cons, if_neg (by decide)]
    have hclean2 : ∀ c ∈ ('/' :: '/' :: (nl ++ ensureSlash pa)),
        c ≠ '\t' ∧ c ≠ '\r' ∧ c ≠ '\n' := by
      intro c hc
      rcases List.mem_cons.1 hc with rfl | hc
      · refine ⟨by decide, by decide, by decide⟩
      rcases List.mem_cons.1 hc with rfl | hc
      · refine ⟨by decide, by decide, by decide⟩
      rcases List.mem_append.1 hc with hc | hc
      · exact hcl_nl c hc
      · exact hu_cl c hc
    have hform : pyUnparse nl pa [] =
        "https:".toList ++ ('/' :: '/' :: (nl ++ ensureSlash pa)) := by
      unfold pyUnparse
      simp only []
      rw [if_neg (by decide), if_pos hcond]
    rw [hform]
    simp only [pyUrlparse, sanitizeUrl_https _ hclean2, splitScheme_https,
      splitNetloc_build nl (ensureSlash pa) hnl hu_tw1 hb1 hb2,
      splitHash_nohash _ hu_h, splitQmark_noq _ hu_q]
  | cons c0 q2 =>
    have hu_tw2 : (ensureSlash pa ++ '?' :: (c0 :: q2)).takeWhile notDelim = [] := by
      rcases ensureSlash_shape pa with he | ⟨t, he⟩
      · rw [he, List.nil_append, List.takeWhile_cons, if_neg (by decide)]
      · rw [he, List.cons_append, List.takeWhile_cons, if_neg (by decide)]
    have hhash2 : ∀ c ∈ ensureSlash pa ++ '?' :: (c0 :: q2), c ≠ '#' := by
      intro c hc
      rcases List.mem_append.1 hc with hc | hc
      · exact hu_h c hc
      · rcases List.mem_cons.1 hc with rfl | hc
        · decide
        · exact hq c hc
    have hclean2 : ∀ c ∈ ('/' :: '/' :: (nl ++ (ensureSlash pa ++ '?' :: (c0 :: q2)))),
        c ≠ '\t' ∧ c ≠ '\r' ∧ c ≠ '\n' := by
      intro c hc
      rcases List.mem_cons.1 hc with rfl | hc
      · refine ⟨by decide, by decide, by decide⟩
      rcases List.mem_cons.1 hc with rfl | hc
      · refine ⟨by decide, by decide, by decide⟩
      rcases List.mem_append.1 hc with hc | hc
      · exact hcl_nl c hc
      rcases List.mem_append.1 hc with hc | hc
      · exact hu_cl c hc
      rcases List.mem_cons.1 hc with rfl | hc
      · refine ⟨by decide, by decide, by decide⟩
      · exact hcl_q c hc
    have hform : pyUnparse nl pa (c0 :: q2) =
        "https:".toList ++ ('/' :: '/' :: (nl ++ (ensureSlash pa ++ '?' :: (c0 :: q2)))) := by
      unfold pyUnparse
      simp only []
      rw [if_pos (by rfl), if_pos hcond]
      simp [List.append_assoc]
    rw [hform]
    simp only [pyUrlparse, sanitizeUrl_https _ hclean2, splitScheme_https,
      splitNetloc_build nl (ensureSlash pa ++ '?' :: (c0 :: q2)) hnl hu_tw2 hb1 hb2,
      splitHash_nohash _ hhash2, splitQmark_build (ensureSlash pa) (c0 :: q2) hu_q]

/-! ### splitParams, ensureSlash and pyUnparse interaction -/

theorem takeWhile_append_nil (p : Char → Bool) (xs ys : Str)
    (hy : ys.takeWhile p = []) :
    (xs ++ ys).takeWhile p = xs.takeWhile p := by
  induction xs with
  | nil => simp [hy]
  | cons a t ih =>
    rw [List.cons_append, List.takeWhile_cons, List.takeWhile_cons]
    split
    · rw [ih]
    · rfl

theorem lastSegment_cons_slash (pa : Str) : lastSegment ('/' :: pa) = lastSegment pa := by
  unfold lastSegment
  rw [List.reverse_cons, takeWhile_append_nil _ _ _ (by decide)]

theorem takeWhile_length_lt (p : Char → Bool) (l : Str) (c : Char) (hc : c ∈ l)
    (hp : p c = false) : (l.takeWhile p).length < l.length := by
  induction l with
  | nil => simp at hc
  | cons a t ih =>
    rw [List.takeWhile_cons]
    split
    · next ha =>
      rcases List.mem_cons.1 hc with rfl | hm
      · rw [hp] at ha
        exact absurd ha (by simp)
      · simpa using ih hm
    · simp

theorem lastSegment_length_le (p : Str) : (lastSegment p).length ≤ p.length := by
  unfold lastSegment
  rw [List.length_reverse]
  have h1 : (p.reverse.takeWhile (fun c => c != '/')).Sublist p.reverse :=
    List.takeWhile_sublist _
  have h2 := h1.length_le
  rwa [List.length_reverse] at h2

theorem splitParams_cons_slash (pa : Str) (h : splitParams ("https".toList) pa = pa) :
    splitParams ("https".toList) ('/' :: pa) = '/' :: pa := by
  by_cases hsemi : pa.contains ';' = true
  · have hsemi_mem : ';' ∈ pa := by simpa using hsemi
    have hseg : (lastSegment pa).contains ';' = false := by
      by_cases hslash : pa.contains '/' = true
      · by_cases hsg : (lastSegment pa).contains ';' = true
        · exfalso
          unfold splitParams at h
          rw [if_pos (by rw [hsemi]; decide), if_pos hslash, if_pos hsg] at h
          have hlen := congrArg List.length h
          rw [List.length_append, List.length_take] at hlen
          have h1 : (List.takeWhile (fun c => c != ';') (lastSegment pa)).length
              < (lastSegment pa).length :=
            takeWhile_length_lt _ _ ';' (by simpa using hsg) (by decide)
          have h2 := lastSegment_length_le pa
          omega
        · exact Bool.eq_false_iff.mpr hsg
      · exfalso
        unfold splitParams at h
        rw [if_pos (by rw [hsemi]; decide), if_neg hslash] at h
        have hlen := congrArg List.length h
        have h1 : (List.takeWhile (fun c => c != ';') pa).length < pa.length :=
          takeWhile_length_lt _ _ ';' hsemi_mem (by decide)
        omega
    have hc1 : (usesParams.contains ("https".toList) && ('/' :: pa).contains ';') = true := by
      rw [Bool.and_eq_true]
      refine ⟨by decide, ?_⟩
      simpa using List.mem_cons_of_mem '/' hsemi_mem
    have hc2 : ('/' :: pa).contains '/' = true := by
      simpa using List.mem_cons_self '/' pa
    have hc3 : ¬((lastSegment ('/' :: pa)).contains ';' = true) := by
      rw [lastSegment_cons_slash, hseg]
      exact Bool.false_ne_true
    unfold splitParams
    rw [if_pos hc1, if_pos hc2, if_neg hc3]
  · unfold splitParams
    rw [if_neg ?c4]
    case c4 =>
      rw [Bool.and_eq_true]
      intro hand
      have hm0 : ';' ∈ ('/' :: pa) := by simpa using hand.2
      rcases List.mem_cons.1 hm0 with he | hm
      · exact absurd he (by decide)
      · exact hsemi (by simpa using hm)

theorem splitParams_ensure (pa : Str) (h : splitParams ("https".toList) pa = pa) :
    splitParams ("https".toList) (ensureSlash pa) = ensureSlash pa := by
  unfold ensureSlash
  split
  · exact splitParams_cons_slash pa h
  · exact h

theorem rstripSlash_ensure (pa : Str) (h : rstripSlash pa = pa) :
    rstripSlash (ensureSlash pa) = ensureSlash pa := by
  unfold ensureSlash
  split
  · next hcond =>
    have hne : pa ≠ [] := by
      intro hpa
      rw [hpa] at hcond
      simp at hcond
    exact rstripSlash_cons_stable '/' pa h hne
  · exact h

theorem pyUnparse_ensure (nl pa q : Str) :
    pyUnparse nl (ensureSlash pa) q = pyUnparse nl pa q := by
  by_cases hid : ensureSlash pa = pa
  · rw [hid]
  · have hsh : ∃ c t, pa = c :: t ∧ c ≠ '/' := by
      unfold ensureSlash at hid
      split at hid
      · next hcond =>
        cases pa with
        | nil => simp at hcond
        | cons c t =>
          refine ⟨c, t, rfl, ?_⟩
          intro hc
          rw [hc] at hcond
          simp at hcond
      · exact absurd rfl hid
    obtain ⟨c, t, rfl, hc⟩ := hsh
    have hu : ensureSlash (c :: t) = '/' :: c :: t := by
      unfold ensureSlash
      rw [if_pos (by simp [hc])]
    have hu2 : ensureSlash ('/' :: c :: t) = '/' :: c :: t := by
      unfold ensureSlash
      rw [if_neg (by simp)]
    rw [hu]
    unfold pyUnparse
    simp only []
    rw [hu2, hu]
    have hc1 : (!nl.isEmpty || decide (('/' :: c :: t).take 2 ≠ ['/', '/'])) = true := by
      simp [hc]
    have hc2 : (!nl.isEmpty || decide ((c :: t).take 2 ≠ ['/', '/'])) = true := by
      cases t <;> simp [hc]
    rw [hc1, hc2]
    simp

theorem containsSub_cons (pat : Str) (c : Char) (s : Str)
    (h : containsSub pat s = true) : containsSub pat (c :: s) = true := by
  rw [containsSub, h]
  simp

theorem containsSub_ensure (pat pa : Str) (h : containsSub pat pa = true) :
    containsSub pat (ensureSlash pa) = true := by
  unfold ensureSlash
  split
  · exact containsSub_cons pat '/' pa h
  · exact h

theorem http_isPrefixOf_unparse (nl pa q : Str) :
    ("http".toList).isPrefixOf (pyUnparse nl pa q) = true := by
  unfold pyUnparse
  simp only []
  split
  · rfl
  · rfl

theorem lowerStr_eq_self (s : Str) (h : ∀ c ∈ s, c.toLower = c) : lowerStr s = s := by
  induction s with
  | nil => rfl
  | cons c t ih =>
    unfold lowerStr
    rw [List.map_cons, h c (List.mem_cons_self c t)]
    have h2 := ih (fun x hx => h x (List.mem_cons_of_mem c hx))
    unfold lowerStr at h2
    rw [h2]

theorem mem_lowerStr_fixed (s : Str) (c : Char) (h : c ∈ lowerStr s) : c.toLower = c := by
  unfold lowerStr at h
  obtain ⟨d, hd, rfl⟩ := List.mem_map.1 h
  exact toLower_idem d

theorem pyUnparse_subset (nl pa q : Str) (c : Char) (h : c ∈ pyUnparse nl pa q) :
    c ∈ nl ∨ c ∈ pa ∨ c ∈ q ∨ c ∈ "https:/?".toList := by
  have hlit : ∀ x ∈ "https:".toList, x ∈ "https:/?".toList := by decide
  unfold pyUnparse at h
  simp only [] at h
  have hx : c ∈ '/' :: '/' :: (nl ++ ensureSlash pa) →
      c ∈ nl ∨ c ∈ pa ∨ c ∈ q ∨ c ∈ "https:/?".toList := by
    intro hb
    rcases List.mem_cons.1 hb with rfl | hb
    · exact Or.inr (Or.inr (Or.inr (by decide)))
    rcases List.mem_cons.1 hb with rfl | hb
    · exact Or.inr (Or.inr (Or.inr (by decide)))
    rcases List.mem_append.1 hb with hb | hb
    · exact Or.inl hb
    rcases mem_ensureSlash pa c hb with rfl | hb
    · exact Or.inr (Or.inr (Or.inr (by decide)))
    · exact Or.inr (Or.inl hb)
  split at h
  · rcases List.mem_append.1 h with h1 | h1
    · rcases List.mem_append.1 h1 with ha | hb
      · exact Or.inr (Or.inr (Or.inr (hlit c ha)))
      · split at hb
        · exact hx hb
        · exact Or.inr (Or.inl hb)
    · rcases List.mem_cons.1 h1 with rfl | hm
      · exact Or.inr (Or.inr (Or.inr (by decide)))
      · exact Or.inr (Or.inr (Or.inl hm))
  · rcases List.mem_append.1 h with ha | hb
    · exact Or.inr (Or.inr (Or.inr (hlit c ha)))
    · split at hb
      · exact hx hb
      · exact Or.inr (Or.inl hb)

theorem splitAmp_mem_subset (s : Str) : ∀ x ∈ splitAmp s, ∀ c ∈ x, c ∈ s := by
  induction s using splitAmp.induct with
  | case1 =>
    intro x hx c hc
    simp [splitAmp] at hx
    rw [hx] at hc
    simp at hc
  | case2 rest ih =>
    rw [splitAmp]
    intro x hx c hc
    rcases List.mem_cons.1 hx with rfl | hm
    · simp at hc
    · exact List.mem_cons_of_mem _ (ih x hm c hc)
  | case3 c0 rest h0 h t ht ih =>
    rw [splitAmp]
    · rw [ht]
      intro x hx c hc
      rcases List.mem_cons.1 hx with rfl | hm
      · rcases List.mem_cons.1 hc with rfl | hm2
        · exact List.mem_cons_self _ _
        · exact List.mem_cons_of_mem _ (ih h (by rw [ht]; simp) c hm2)
      · exact List.mem_cons_of_mem _ (ih x (by rw [ht]; simp [hm]) c hc)
    · exact h0
  | case4 c0 rest h0 h ih =>
    exact absurd h (splitAmp_ne_nil rest)

theorem joinAmp_subset (L : List Str) (s : Str) (hL : ∀ x ∈ L, ∀ c ∈ x, c ∈ s) :
    ∀ c ∈ joinAmp L, c ∈ s ∨ c = '&' := by
  induction L with
  | nil =>
    intro c hc
    simp [joinAmp] at hc
  | cons x M ih =>
    cases M with
    | nil =>
      intro c hc
      rw [joinAmp] at hc
      exact Or.inl (hL x (by simp) c hc)
    | cons y N =>
      intro c hc
      rw [joinAmp] at hc
      · rcases List.mem_append.1 hc with h1 | h1
        · exact Or.inl (hL x (by simp) c h1)
        · rcases List.mem_cons.1 h1 with rfl | hm
          · exact Or.inr rfl
          · exact ih (fun z hz c2 hc2 => hL z (List.mem_cons_of_mem x hz) c2 hc2) c hm
      · simp

theorem joinAmp_ne_nil (L : List Str) (hne : L ≠ []) (h : ∀ x ∈ L, x ≠ []) :
    joinAmp L ≠ [] := by
  cases L with
  | nil => exact absurd rfl hne
  | cons x M =>
    cases M with
    | nil =>
      rw [joinAmp]
      exact h x (by simp)
    | cons y N =>
      rw [joinAmp]
      · intro hc
        rcases List.append_eq_nil.1 hc with ⟨h1, h2⟩
        simp at h2
      · simp

theorem normalize_url_dest (url out : Str) (P : Parsed)
    (hp : pyUrlparse (lowerStr url) = some P) (h : normalize_url url = some out) :
    ("http".toList).isPrefixOf url = true ∧
    ((containsSub ("profile.php".toList) (rstripSlash P.path) && !P.query.isEmpty) = true ∧
      out = pyUnparse (removeWWW P.netloc) (rstripSlash P.path)
        (joinAmp ((splitAmp P.query).filter (fun q => ("id=".toList).isPrefixOf q))) ∨
     (containsSub ("profile.php".toList) (rstripSlash P.path) && !P.query.isEmpty) = false ∧
      out = pyUnparse (removeWWW P.netloc) (rstripSlash P.path) []) := by
  unfold normalize_url at h
  by_cases hpre : (("http".toList).isPrefixOf url) = true
  · rw [if_pos hpre, hp] at h
    simp only [] at h
    refine ⟨hpre, ?_⟩
    by_cases hb : (containsSub ("profile.php".toList) (rstripSlash P.path)
        && !P.query.isEmpty) = true
    · rw [if_pos hb] at h
      exact Or.inl ⟨hb, (Option.some.injEq _ _ ▸ h).symm⟩
    · rw [if_neg hb] at h
      exact Or.inr ⟨Bool.eq_false_iff.mpr hb, (Option.some.injEq _ _ ▸ h).symm⟩
  · rw [if_neg hpre] at h
    simp at h

/-- What a successful `normalize_url` run yields, parsed back: under the
netloc/path fixability side condition the output parses to scheme
`https`, the cleaned netloc, the slash-adjusted cleaned path, and the
cleaned query. -/
theorem normalize_out_parses (url out : Str) (P : Parsed)
    (hp : pyUrlparse (lowerStr url) = some P)
    (hn : normalize_url url = some out)
    (h3 : ¬(removeWWW P.netloc = [] ∧ (rstripSlash P.path).take 2 = ['/', '/'])) :
    lowerStr out = out ∧
    ("http".toList).isPrefixOf out = true ∧
    ∃ qq : Str, out = pyUnparse (removeWWW P.netloc) (rstripSlash P.path) qq ∧
      pyUrlparse out = some ⟨"https".toList, removeWWW P.netloc,
        splitParams ("https".toList) (ensureSlash (rstripSlash P.path)), qq⟩ ∧
      (qq = joinAmp ((splitAmp P.query).filter (fun q => ("id=".toList).isPrefixOf q)) ∧
        (containsSub ("profile.php".toList) (rstripSlash P.path) && !P.query.isEmpty) = true ∨
       qq = [] ∧
        (containsSub ("profile.php".toList) (rstripSlash P.path) && !P.query.isEmpty) = false) := by
  obtain ⟨hpre, hcases⟩ := normalize_url_dest url out P hp hn
  obtain ⟨f1, f2, f3, f4, f5, g1, g2, g3⟩ := pyUrlparse_facts _ P hp
  have hsan : ∀ c, c ∈ sanitizeUrl (lowerStr url) →
      c.toLower = c ∧ (c ≠ '\t' ∧ c ≠ '\r' ∧ c ≠ '\n') := by
    intro c hc
    exact ⟨mem_lowerStr_fixed _ c (sanitizeUrl_subset _ c hc), sanitizeUrl_clean _ c hc⟩
  have hnl_mem : ∀ c ∈ removeWWW P.netloc, c ∈ P.netloc :=
    fun c hc => removeWWW_subset _ c hc
  have hpa_mem : ∀ c ∈ rstripSlash P.path, c ∈ P.path :=
    fun c hc => rstripSlash_subset _ c hc
  have hnl_nd : ∀ c ∈ removeWWW P.netloc, notDelim c = true :=
    fun c hc => f1 c (hnl_mem c hc)
  have hnl_b1 : (removeWWW P.netloc).contains '[' = false := by
    rw [Bool.eq_false_iff]
    intro hcontra
    have hm : '[' ∈ P.netloc := hnl_mem '[' (by simpa using hcontra)
    rw [Bool.eq_false_iff] at f2
    exact f2 (by simpa using hm)
  have hnl_b2 : (removeWWW P.netloc).contains ']' = false := by
    rw [Bool.eq_false_iff]
    intro hcontra
    have hm : ']' ∈ P.netloc := hnl_mem ']' (by simpa using hcontra)
    rw [Bool.eq_false_iff] at f3
    exact f3 (by simpa using hm)
  have hpa_ch : ∀ c ∈ rstripSlash P.path, c ≠ '?' ∧ c ≠ '#' :=
    fun c hc => f4 c (hpa_mem c hc)
  have hlit : ∀ x ∈ "https:/?".toList, Char.toLower x = x := by decide
  rcases hcases with ⟨hb, hout⟩ | ⟨hb, hout⟩
  · have hkept_mem : ∀ x ∈ (splitAmp P.query).filter (fun q => ("id=".toList).isPrefixOf q),
        ∀ c ∈ x, c ∈ P.query := by
      intro x hx c hc
      exact splitAmp_mem_subset P.query x (List.mem_of_mem_filter hx) c hc
    have hq_sub : ∀ c ∈ joinAmp ((splitAmp P.query).filter
        (fun q => ("id=".toList).isPrefixOf q)), c ∈ P.query ∨ c = '&' :=
      joinAmp_subset _ P.query hkept_mem
    have hq_hash : ∀ c ∈ joinAmp ((splitAmp P.query).filter
        (fun q => ("id=".toList).isPrefixOf q)), c ≠ '#' := by
      intro c hc
      rcases hq_sub c hc with hm | rfl
      · exact f5 c hm
      · decide
    have hq_cl : ∀ c ∈ joinAmp ((splitAmp P.query).filter
        (fun q => ("id=".toList).isPrefixOf q)),
        c.toLower = c ∧ (c ≠ '\t' ∧ c ≠ '\r' ∧ c ≠ '\n') := by
      intro c hc
      rcases hq_sub c hc with hm | rfl
      · exact hsan c (g3 c hm)
      · exact ⟨by decide, by decide, by decide, by decide⟩
    have hcl : ∀ c ∈ (removeWWW P.netloc ++ rstripSlash P.path) ++
        joinAmp ((splitAmp P.query).filter (fun q => ("id=".toList).isPrefixOf q)),
        c ≠ '\t' ∧ c ≠ '\r' ∧ c ≠ '\n' := by
      intro c hc
      rcases List.mem_append.1 hc with hc | hc
      · rcases List.mem_append.1 hc with hc | hc
        · exact (hsan c (g1 c (hnl_mem c hc))).2
        · exact (hsan c (g2 c (hpa_mem c hc))).2
      · exact (hq_cl c hc).2
    have hmaster := pyUrlparse_unparse (removeWWW P.netloc) (rstripSlash P.path)
      (joinAmp ((splitAmp P.query).filter (fun q => ("id=".toList).isPrefixOf q)))
      hnl_nd hnl_b1 hnl_b2 hpa_ch hq_hash hcl h3
    have hlower : lowerStr out = out := by
      rw [hout]
      apply lowerStr_eq_self
      intro c hc
      rcases pyUnparse_subset _ _ _ c hc with hm | hm | hm | hm
      · exact (hsan c (g1 c (hnl_mem c hm))).1
      · exact (hsan c (g2 c (hpa_mem c hm))).1
      · exact (hq_cl c hm).1
      · exact hlit c hm
    refine ⟨hlower, by rw [hout]; exact http_isPrefixOf_unparse _ _ _,
      joinAmp ((splitAmp P.query).filter (fun q => ("id=".toList).isPrefixOf q)),
      hout, by rw [hout]; exact hmaster, Or.inl ⟨rfl, hb⟩⟩
  · have hq_hash : ∀ c ∈ ([] : Str), c ≠ '#' := fun c hc => absurd hc (List.not_mem_nil c)
    have hcl : ∀ c ∈ (removeWWW P.netloc ++ rstripSlash P.path) ++ ([] : Str),
        c ≠ '\t' ∧ c ≠ '\r' ∧ c ≠ '\n' := by
      intro c hc
      rw [List.append_nil] at hc
      rcases List.mem_append.1 hc with hc | hc
      · exact (hsan c (g1 c (hnl_mem c hc))).2
      · exact (hsan c (g2 c (hpa_mem c hc))).2
    have hmaster := pyUrlparse_unparse (removeWWW P.netloc) (rstripSlash P.path) []
      hnl_nd hnl_b1 hnl_b2 hpa_ch hq_hash hcl h3
    have hlower : lowerStr out = out := by
      rw [hout]
      apply lowerStr_eq_self
      intro c hc
      rcases pyUnparse_subset _ _ _ c hc with hm | hm | hm | hm
      · exact (hsan c (g1 c (hnl_mem c hm))).1
      · exact (hsan c (g2 c (hpa_mem c hm))).1
      · exact absurd hm (List.not_mem_nil c)
      · exact hlit c hm
    exact ⟨hlower, by rw [hout]; exact http_isPrefixOf_unparse _ _ _,
      [], hout, by rw [hout]; exact hmaster, Or.inr ⟨rfl, hb⟩⟩

/-- C7: counterexample.  The spec claims normalize is idempotent on every
accepted input, but `replace('www.', '')` can create a new `www.`
occurrence: `https://wwwww.w./` normalizes to `https://www.`, which
normalizes again to `https://` — a different key. -/
theorem claim_C7_counterexample :
    ∃ out : Str, normalize_url ("https://wwwww.w./".toList) = some out ∧
      normalize_url out ≠ some out :=
  ⟨"https://www.".toList, by decide, by decide⟩

/-- C7 (amended): normalization is idempotent on every accepted input
whose parse is stable under the three re-normalization hazards: the
cleaned host contains no residual `www.` substring, the slash-stripped
path is a fixed point of parameter splitting, and the cleaned host and
path do not make the reassembled URL start a fresh `//` netloc.  Under
those side conditions `normalize_url out = some out` for the produced
key `out`. -/
theorem claim_C7 (url out : Str) (P : Parsed)
    (hp : pyUrlparse (lowerStr url) = some P)
    (hn : normalize_url url = some out)
    (h1 : containsSub ("www.".toList) (removeWWW P.netloc) = false)
    (h2 : splitParams ("https".toList) (rstripSlash P.path) = rstripSlash P.path)
    (h3 : ¬(removeWWW P.netloc = [] ∧ (rstripSlash P.path).take 2 = ['/', '/'])) :
    normalize_url out = some out := by
  obtain ⟨hlower, hpre2, qq, hout, hparse2, hqq⟩ := normalize_out_parses url out P hp hn h3
  have hsp := splitParams_ensure (rstripSlash P.path) h2
  have hrs := rstripSlash_ensure (rstripSlash P.path) (rstripSlash_idem P.path)
  have hrw : removeWWW (removeWWW P.netloc) = removeWWW P.netloc :=
    removeWWW_eq_self _ h1
  unfold normalize_url
  rw [if_pos hpre2, hlower, hparse2]
  simp only []
  rw [hsp, hrs, hrw]
  rcases hqq with ⟨hqe, hb⟩ | ⟨hqe, hb⟩
  · rw [Bool.and_eq_true] at hb
    obtain ⟨hprof, hqne⟩ := hb
    cases hkept : (splitAmp P.query).filter (fun q => ("id=".toList).isPrefixOf q) with
    | nil =>
      have hqe2 : qq = [] := by rw [hqe, hkept]; rfl
      rw [hqe2, if_neg (by simp), pyUnparse_ensure, hout, hqe2]
    | cons k ks =>
      have hfmem : ∀ x ∈ k :: ks, (("id=".toList).isPrefixOf x) = true := by
        intro x hx
        rw [← hkept] at hx
        exact List.of_mem_filter hx
      have hne_el : ∀ x ∈ k :: ks, x ≠ [] := by
        intro x hx hx0
        have hf := hfmem x hx
        rw [hx0] at hf
        exact absurd hf (by decide)
      have hamp : ∀ x ∈ k :: ks, '&' ∉ x := by
        intro x hx
        rw [← hkept] at hx
        exact splitAmp_no_amp P.query x (List.mem_of_mem_filter hx)
      have hqqne : qq ≠ [] := by
        rw [hqe, hkept]
        exact joinAmp_ne_nil _ (by simp) hne_el
      have hcond2 : (containsSub ("profile.php".toList)
          (ensureSlash (rstripSlash P.path)) && !qq.isEmpty) = true := by
        rw [Bool.and_eq_true]
        refine ⟨containsSub_ensure _ _ hprof, ?_⟩
        cases hq0 : qq with
        | nil => exact absurd hq0 hqqne
        | cons a b => rfl
      rw [if_pos hcond2]
      have hsa : splitAmp qq = k :: ks := by
        rw [hqe, hkept]
        exact splitAmp_joinAmp _ (by simp) hamp
      rw [hsa]
      have hfilter : (k :: ks).filter (fun q => ("id=".toList).isPrefixOf q) = k :: ks :=
        List.filter_eq_self.mpr hfmem
      rw [hfilter]
      have hj : joinAmp (k :: ks) = qq := by rw [hqe, hkept]
      rw [hj, pyUnparse_ensure, hout]
  · rw [hqe, if_neg (by simp), pyUnparse_ensure, hout, hqe]

/-- C7: witness. -/
theorem claim_C7_witness :
    normalize_url ("https://www.example.com/path/".toList)
        = some ("https://example.com/path".toList) ∧
      normalize_url ("https://example.com/path".toList)
        = some ("https://example.com/path".toList) :=
  ⟨by decide, claim_C7 ("https://www.example.com/path/".toList)
      ("https://example.com/path".toList)
      ⟨"https".toList, "www.example.com".toList, "/path/".toList, []⟩
      (by decide) (by decide) (by decide) (by decide) (by decide)⟩

/-! ### The effect of a leading www. prefix on parsing -/

theorem contains_www_append (tw : Str) (c : Char) (hc : c ∉ "www.".toList) :
    ("www.".toList ++ tw).contains c = tw.contains c := by
  cases h : tw.contains c
  · rw [Bool.eq_false_iff]
    intro hcontra
    have hm : c ∈ "www.".toList ++ tw := by simpa using hcontra
    rcases List.mem_append.1 hm with hm | hm
    · exact hc hm
    · rw [Bool.eq_false_iff] at h
      exact h (by simpa using hm)
  · have hm : c ∈ tw := by simpa using h
    have hm2 : c ∈ "www.".toList ++ tw := List.mem_append.2 (Or.inr hm)
    simpa using hm2

theorem sanitizeUrl_www (t : Str) :
    sanitizeUrl ("https://www.".toList ++ t) =
      "https://www.".toList ++ (t.filter (fun c => c != '\t' && c != '\r' && c != '\n')) := by
  unfold sanitizeUrl
  rw [show ("https://www.".toList ++ t) = 'h' :: ("ttps://www.".toList ++ t) from rfl]
  rw [List.dropWhile_cons, if_neg (by decide)]
  rw [show ('h' :: ("ttps://www.".toList ++ t)) = "https://www.".toList ++ t from rfl]
  rw [List.filter_append]
  rw [show ("https://www.".toList.filter
      (fun c => c != '\t' && c != '\r' && c != '\n')) = "https://www.".toList from rfl]

theorem sanitizeUrl_slash2 (t : Str) :
    sanitizeUrl ("https://".toList ++ t) =
      "https://".toList ++ (t.filter (fun c => c != '\t' && c != '\r' && c != '\n')) := by
  unfold sanitizeUrl
  rw [show ("https://".toList ++ t) = 'h' :: ("ttps://".toList ++ t) from rfl]
  rw [List.dropWhile_cons, if_neg (by decide)]
  rw [show ('h' :: ("ttps://".toList ++ t)) = "https://".toList ++ t from rfl]
  rw [List.filter_append]
  rw [show ("https://".toList.filter
      (fun c => c != '\t' && c != '\r' && c != '\n')) = "https://".toList from rfl]

theorem splitNetloc_www (u : Str) :
    splitNetloc ("//www.".toList ++ u) =
      if (u.takeWhile notDelim).contains '[' || (u.takeWhile notDelim).contains ']' then none
      else some ("www.".toList ++ u.takeWhile notDelim, u.dropWhile notDelim) := by
  unfold splitNetloc
  rw [if_pos (show (("//www.".toList ++ u)).take 2 = ['/', '/'] from rfl)]
  rw [show ("//www.".toList ++ u).drop 2 = "www.".toList ++ u from rfl]
  rw [takeWhile_append_of_all (by decide), dropWhile_append_of_all (by decide)]
  rw [contains_www_append _ '[' (by decide), contains_www_append _ ']' (by decide)]

theorem splitNetloc_slash2 (u : Str) :
    splitNetloc ("//".toList ++ u) =
      if (u.takeWhile notDelim).contains '[' || (u.takeWhile notDelim).contains ']' then none
      else some (u.takeWhile notDelim, u.dropWhile notDelim) := by
  unfold splitNetloc
  rw [if_pos (show (("//".toList ++ u)).take 2 = ['/', '/'] from rfl)]
  rw [show ("//".toList ++ u).drop 2 = u from rfl]

theorem pyUrlparse_www_prefix (t : Str) :
    pyUrlparse ("https://www.".toList ++ t) =
      (pyUrlparse ("https://".toList ++ t)).map
        (fun P => Parsed.mk P.scheme ("www.".toList ++ P.netloc) P.path P.query) := by
  unfold pyUrlparse
  simp only []
  rw [sanitizeUrl_www t, sanitizeUrl_slash2 t]
  rw [show ("https://www.".toList ++
      (t.filter (fun c => c != '\t' && c != '\r' && c != '\n'))) =
      "https:".toList ++ ("//www.".toList ++
        (t.filter (fun c => c != '\t' && c != '\r' && c != '\n'))) from rfl]
  rw [show ("https://".toList ++
      (t.filter (fun c => c != '\t' && c != '\r' && c != '\n'))) =
      "https:".toList ++ ("//".toList ++
        (t.filter (fun c => c != '\t' && c != '\r' && c != '\n'))) from rfl]
  rw [splitScheme_https, splitScheme_https]
  simp only []
  rw [splitNetloc_www, splitNetloc_slash2]
  cases hbr : (((t.filter (fun c => c != '\t' && c != '\r' && c != '\n')).takeWhile
        notDelim).contains '[' ||
      ((t.filter (fun c => c != '\t' && c != '\r' && c != '\n')).takeWhile
        notDelim).contains ']') with
  | false => rfl
  | true => rfl

/-- Two inputs differing only by a leading `www.` directly after the
`https://` scheme prefix normalize identically. -/
theorem normalize_www_prefix (s : Str) :
    normalize_url ("https://www.".toList ++ s) =
      normalize_url ("https://".toList ++ s) := by
  unfold normalize_url
  rw [if_pos (show ("http".toList).isPrefixOf ("https://www.".toList ++ s) = true from rfl)]
  rw [if_pos (show ("http".toList).isPrefixOf ("https://".toList ++ s) = true from rfl)]
  have hl1 : lowerStr ("https://www.".toList ++ s) = "https://www.".toList ++ lowerStr s := by
    unfold lowerStr
    rw [List.map_append]
    rw [show ("https://www.".toList.map Char.toLower) = "https://www.".toList from by decide]
  have hl2 : lowerStr ("https://".toList ++ s) = "https://".toList ++ lowerStr s := by
    unfold lowerStr
    rw [List.map_append]
    rw [show ("https://".toList.map Char.toLower) = "https://".toList from by decide]
  rw [hl1, hl2, pyUrlparse_www_prefix (lowerStr s)]
  cases hP : pyUrlparse ("https://".toList ++ lowerStr s) with
  | none => rfl
  | some P => rfl

/-- C8: counterexample.  The code removes every `www.` occurrence from
the host, not only a leading one: `https://xwww.y` (host `xwww.y`, whose
`www.` is not leading, so the spec rule would leave it unchanged)
normalizes to `https://xy`. -/
theorem claim_C8_counterexample :
    normalize_url ("https://xwww.y".toList) = some ("https://xy".toList) ∧
      stripLeadingWWW ("xwww.y".toList) = "xwww.y".toList ∧
      removeWWW ("xwww.y".toList) = "xy".toList :=
  ⟨by decide, by decide, by decide⟩

/-- C8 (amended): provided the cleaned host is nonempty or the
slash-stripped path does not begin with `//` (otherwise reassembly makes
the path's first segment the new host, e.g. `https://www.//x` yields the
key `https://x` with host `x`), the host component of the produced
identity key is the reference's lower-cased host with every `www.`
occurrence removed, not only a leading one; and two references differing
only by a leading `www.` after `https://` normalize to the same key. -/
theorem claim_C8 (url out : Str) (P : Parsed)
    (hp : pyUrlparse (lowerStr url) = some P)
    (hn : normalize_url url = some out)
    (h3 : ¬(removeWWW P.netloc = [] ∧ (rstripSlash P.path).take 2 = ['/', '/'])) :
    (∃ Q : Parsed, pyUrlparse out = some Q ∧ Q.netloc = removeWWW P.netloc) ∧
    ∀ s : Str, normalize_url ("https://www.".toList ++ s) =
      normalize_url ("https://".toList ++ s) := by
  obtain ⟨hlower, hpre2, qq, hout, hparse2, hqq⟩ := normalize_out_parses url out P hp hn h3
  exact ⟨⟨⟨"https".toList, removeWWW P.netloc,
      splitParams ("https".toList) (ensureSlash (rstripSlash P.path)), qq⟩,
    hparse2, rfl⟩, normalize_www_prefix⟩

/-- C8: witness. -/
theorem claim_C8_witness :
    (∃ Q : Parsed, pyUrlparse ("https://example.com/a".toList) = some Q ∧
        Q.netloc = removeWWW ("www.example.com".toList)) ∧
    ∀ s : Str, normalize_url ("https://www.".toList ++ s) =
      normalize_url ("https://".toList ++ s) :=
  claim_C8 ("https://www.example.com/a".toList) ("https://example.com/a".toList)
    ⟨"https".toList, "www.example.com".toList, "/a".toList, []⟩
    (by decide) (by decide) (by decide)

end GraphLink
